import Mathlib

/-!
# Verification of the log-record reconstruction and filter engine (`src/rlog.py`)

Shallow embedding of the core of `rlog.py`:

* the header regular expression `pattern` (line 40-42), embedded as an
  explicit backtracking matcher `matchHeader` with Python `re` semantics
  (greedy quantifiers try longest first, lazy `+?` tries shortest first,
  earlier quantifiers backtrack only after later ones are exhausted);
* the streaming parser `read_file` (lines 45-69);
* the predicate model `filter_detail` (lines 120-134), including the
  exceptions the Python code can raise (`detail.lv` does not exist on
  `Detail`, and `str`/`datetime` comparisons raise `TypeError`);
* the per-file summary index `init_index` (lines 181-208) and the pruning
  filter `filter_file` inside `generate_logs` (lines 253-274);
* the capped query loop of `generate_logs` (lines 276-285);
* `path_to_files` (lines 137-149) with its glob filter and sort.

Characters are treated at the ASCII portion of Python's Unicode `\s`, `\d`,
`[A-Za-z0-9]` classes; timestamps are `datetime.fromisoformat` values
(Python >= 3.11 semantics), encoded as a single natural number key whose
order agrees with `datetime` order.
-/

deriving instance DecidableEq for Except

namespace RLog

/-- ASCII whitespace, the characters Python's `\s` and `str.strip()` treat
as whitespace. -/
def isPySpace (c : Char) : Bool :=
  c = ' ' || c = '\t' || c = '\n' || c = '\r' || c = '\x0b' || c = '\x0c'

/-- `[A-Za-z0-9]`, the level character class of `pattern`. -/
def isAlnum (c : Char) : Bool :=
  ('A' ≤ c && c ≤ 'Z') || ('a' ≤ c && c ≤ 'z') || ('0' ≤ c && c ≤ '9')

/-- ASCII `\d`. -/
def isDigit (c : Char) : Bool := '0' ≤ c && c ≤ '9'

/-- The thread character class of `pattern`:
`[A-Za-z0-9\s_\-!@#$%^&*()_+|<?.:=\[\],]`.  Note that it contains `[`,
`]` and `,`. -/
def threadChar (c : Char) : Bool :=
  isAlnum c || isPySpace c ||
    ['_', '-', '!', '@', '#', '$', '%', '^', '&', '*', '(', ')', '+',
     '|', '<', '?', '.', ':', '=', '[', ']', ','].contains c

/-- The four captured groups of a successful match of `pattern`. -/
structure HeaderGroups where
  lv : List Char
  thread : List Char
  ts : List Char
  content : List Char
deriving DecidableEq, Repr

/-- Expect a literal character, as in the regex literals `,`, `-`, `:`,
`.`, `]`. -/
def expectChar (c : Char) : List Char → Option (List Char)
  | [] => none
  | a :: rest => if a = c then some rest else none

/-- `\d{2}`: exactly two digits. -/
def twoDigits : List Char → Option (List Char × List Char)
  | a :: b :: rest => if isDigit a && isDigit b then some ([a, b], rest) else none
  | _ => none

/-- Maximal digit run, for the greedy `\d+` (deterministic: the following
literal `]` is not a digit). -/
def spanDigits : List Char → List Char × List Char
  | [] => ([], [])
  | c :: rest =>
    if isDigit c then
      let (ds, r) := spanDigits rest
      (c :: ds, r)
    else ([], c :: rest)

/-- The timestamp part `\d{2}-\d{2}\s\d{2}:\d{2}:\d{2}\.\d+` of `pattern`;
returns the matched characters and the remaining input. -/
def matchTs (s : List Char) : Option (List Char × List Char) := do
  let (d1, s) ← twoDigits s
  let s ← expectChar '-' s
  let (d2, s) ← twoDigits s
  match s with
  | [] => none
  | w :: s =>
    if isPySpace w then do
      let (d3, s) ← twoDigits s
      let s ← expectChar ':' s
      let (d4, s) ← twoDigits s
      let s ← expectChar ':' s
      let (d5, s) ← twoDigits s
      let s ← expectChar '.' s
      let (ds, s) := spanDigits s
      if ds = [] then none
      else
        some (d1 ++ ['-'] ++ d2 ++ [w] ++ d3 ++ [':'] ++ d4 ++ [':'] ++ d5 ++ ['.'] ++ ds, s)
    else none

/-- After the literal `,` that terminates the thread group: the timestamp,
the literal `]:`, and the rest of the line as content (`(.*)$`; the input
has already had its trailing newline removed, so `.*` takes everything). -/
def afterComma (lv th : List Char) (s : List Char) : Option HeaderGroups :=
  match matchTs s with
  | none => none
  | some (ts, r) =>
    match expectChar ']' r with
    | none => none
    | some r =>
      match expectChar ':' r with
      | none => none
      | some r => some ⟨lv, th, ts, r⟩

/-- The lazy thread group `([...]+?),`: try the shortest thread first and
extend one character at a time; every candidate character must be in the
thread class. -/
def threadLoop (lv : List Char) (acc : List Char) : List Char → Option HeaderGroups
  | [] => none
  | c :: rest =>
    if threadChar c then
      let acc := acc ++ [c]
      match rest with
      | ',' :: r2 =>
        match afterComma lv acc r2 with
        | some g => some g
        | none => threadLoop lv acc rest
      | _ => threadLoop lv acc rest
    else none

/-- The greedy `\s*` between level and thread: try consuming the whole
whitespace run first, then hand characters back (from the right) to the
thread group.  `revRun` is the reversed not-yet-released part of the run. -/
def wsLoop (lv : List Char) : List Char → List Char → Option HeaderGroups
  | [], rest => threadLoop lv [] rest
  | c :: revRun, rest =>
    match threadLoop lv [] rest with
    | some g => some g
    | none => wsLoop lv revRun (c :: rest)

/-- The greedy level group `([A-Za-z0-9]+)`: try the longest alphanumeric
run first, then shorter prefixes (the released characters are handed to
the `\s*`/thread part).  `revRun` is the reversed current candidate. -/
def levelLoop : List Char → List Char → Option HeaderGroups
  | [], _ => none
  | c :: revRun, rest =>
    match wsLoop ((c :: revRun).reverse) (rest.takeWhile fun a => isPySpace a).reverse
        (rest.drop (rest.takeWhile fun a => isPySpace a).length) with
    | some g => some g
    | none => levelLoop revRun (c :: rest)

/-- Drop one trailing newline (Python's `$` matches just before a trailing
`'\n'`, and `.` does not match `'\n'`). -/
def dropNL : List Char → List Char
  | [] => []
  | ['\n'] => []
  | c :: rest => c :: dropNL rest

/-- `pattern.match(line)` (line 53): the full header regex
`^\s*\[([A-Za-z0-9]+)\s*([...]+?),(\d{2}-\d{2}\s\d{2}:\d{2}:\d{2}\.\d+)\]:(.*)$`
with Python backtracking semantics, returning the four captured groups. -/
def matchHeader (line : String) : Option HeaderGroups :=
  match (dropNL line.data).dropWhile (fun a => isPySpace a) with
  | '[' :: s1 =>
    if (s1.takeWhile fun a => isAlnum a) = [] then none
    else levelLoop (s1.takeWhile fun a => isAlnum a).reverse
      (s1.drop (s1.takeWhile fun a => isAlnum a).length)
  | _ => none

/-! ## Timestamps (`datetime.fromisoformat`, line 61) -/

/-- Gregorian leap year. -/
def isLeap (y : Nat) : Bool := (y % 4 == 0 && y % 100 != 0) || y % 400 == 0

/-- Days in a month, as validated by `datetime`. -/
def daysInMonth (y m : Nat) : Nat :=
  if m = 2 then (if isLeap y then 29 else 28)
  else if m = 4 || m = 6 || m = 9 || m = 11 then 30
  else 31

def digitVal (c : Char) : Nat := c.toNat - '0'.toNat

def natOfDigits (l : List Char) : Nat := l.foldl (fun a c => 10 * a + digitVal c) 0

/-- Order-preserving encoding of a `datetime` value
(year, month, day, hour, minute, second, microsecond). -/
def tsKey (y mo d h mi s us : Nat) : Nat :=
  us + 1000000 * (s + 60 * (mi + 60 * (h + 24 * (d + 32 * (mo + 13 * y)))))

/-- `datetime.fromisoformat(f"{year}-{ts}")` where `ts` is the captured
group 3 of `pattern` (shape `MM-DD<ws>HH:MM:SS.d+`): any single separator
character is accepted, the fraction may have any number of digits and is
truncated to microseconds, and month/day/hour/minute/second are validated
(day against the current month and leap year).  Returns `none` where the
Python call raises `ValueError`. -/
def parseTs (year : Nat) (ts : List Char) : Option Nat :=
  match ts with
  | m1 :: m2 :: '-' :: d1 :: d2 :: _sep :: h1 :: h2 :: ':' :: i1 :: i2 :: ':' :: s1 :: s2 :: '.' :: frac =>
    if [m1, m2, d1, d2, h1, h2, i1, i2, s1, s2].all (fun c => isDigit c)
        && frac ≠ [] && frac.all (fun c => isDigit c) then
      let mo := natOfDigits [m1, m2]
      let d := natOfDigits [d1, d2]
      let h := natOfDigits [h1, h2]
      let mi := natOfDigits [i1, i2]
      let s := natOfDigits [s1, s2]
      let f6 := frac.take 6
      let us := natOfDigits f6 * 10 ^ (6 - f6.length)
      if 999 < year && year < 10000 && 1 ≤ mo && mo ≤ 12 && 1 ≤ d && d ≤ daysInMonth year mo
          && h ≤ 23 && mi ≤ 59 && s ≤ 59 then
        some (tsKey year mo d h mi s us)
      else none
    else none
  | _ => none

/-! ## Records and the streaming parser `read_file` (lines 45-69) -/

/-- The `dt` field of a `Detail`: the raw captured text when timestamps are
not materialized (`include_dt=False`), a `datetime` value otherwise. -/
inductive DtVal where
  | str (s : String)
  | ts (t : Nat)
deriving DecidableEq, Repr

/-- The `Detail` class (lines 16-23). -/
structure Detail where
  filename : String
  level : String
  thread : String
  dt : DtVal
  content : String
  raw : String
deriving DecidableEq, Repr

/-- An input source: a file name and its lines.  Each line carries its
trailing `'\n'` (as produced by iterating a Python text file); the last
line of a file may lack it. -/
structure PFile where
  name : String
  lines : List String
deriving DecidableEq, Repr

/-- Python `str.strip()`: remove leading and trailing whitespace. -/
def pyStrip (s : String) : String :=
  String.mk (((s.data.dropWhile fun c => isPySpace c).reverse.dropWhile fun c => isPySpace c).reverse)

/-- Parser state: the detail under construction (carried across file
boundaries) and the `should_concat_line` flag (reset at each file start). -/
abbrev PState := Option Detail × Bool

/-- The `ValueError` raised by `fromisoformat`: it carries only the
offending composed string `f"{year}-{dt}"`, not the source or the line. -/
def composeIso (year : Nat) (ts : String) : String := toString year ++ "-" ++ ts

/-- One iteration of the inner loop of `read_file` (lines 52-67): match the
header pattern; on a match, emit the previous detail, materialize the
timestamp if requested (raising `ValueError` on failure), and start a new
detail with `raw = line.strip()`; otherwise append the raw line to the
current detail when concatenation is enabled. -/
def stepLine (year : Nat) (includeDt : Bool) (fname : String) (st : PState) (line : String) :
    List Detail × Except String PState :=
  match matchHeader line with
  | some g =>
    let emitted : List Detail := match st.1 with | some d => [d] | none => []
    let tsStr := String.mk g.ts
    if includeDt then
      match parseTs year g.ts with
      | none => (emitted, .error (composeIso year tsStr))
      | some t =>
        (emitted, .ok (some ⟨fname, String.mk g.lv, String.mk g.thread, .ts t,
          String.mk g.content, pyStrip line⟩, true))
    else
      (emitted, .ok (some ⟨fname, String.mk g.lv, String.mk g.thread, .str tsStr,
        String.mk g.content, pyStrip line⟩, true))
  | none =>
    match st with
    | (some d, true) =>
      ([], .ok (some { d with content := d.content ++ line, raw := d.raw ++ line }, true))
    | _ => ([], .ok st)

/-- Run `read_file`'s inner loop over the lines of one file. -/
def runLines (year : Nat) (includeDt : Bool) (fname : String) :
    PState → List String → List Detail × Except String PState
  | st, [] => ([], .ok st)
  | st, line :: rest =>
    match stepLine year includeDt fname st line with
    | (es, .error e) => (es, .error e)
    | (es, .ok st') =>
      let (es2, r) := runLines year includeDt fname st' rest
      (es ++ es2, r)

/-- Run `read_file` over a list of files, carrying the open detail across
file boundaries and resetting `should_concat_line` at each file start. -/
def runFiles (year : Nat) (includeDt : Bool) :
    Option Detail → List PFile → List Detail × Except String (Option Detail)
  | carry, [] => ([], .ok carry)
  | carry, f :: fs =>
    match runLines year includeDt f.name (carry, false) f.lines with
    | (es, .error e) => (es, .error e)
    | (es, .ok (carry', _)) =>
      let (es2, r) := runFiles year includeDt carry' fs
      (es ++ es2, r)

/-- `read_file(files, include_dt)` (lines 45-69), run to completion: the
sequence of yielded details (the final in-progress detail is yielded at
the end, line 68-69) and, when a timestamp fails to parse, the
`ValueError` that terminates the generator after the details already
yielded. -/
def read_file (year : Nat) (files : List PFile) (includeDt : Bool) :
    List Detail × Option String :=
  match runFiles year includeDt none files with
  | (es, .error e) => (es, some e)
  | (es, .ok c) => (es ++ c.toList, none)

/-! ## Regular expressions for filter criteria

Caller-supplied filter strings (`args.thread`, `args.content`, `args.glob`)
are compiled Python regexes; they are embedded as an abstract syntax tree
with the standard metacharacters and Brzozowski-derivative acceptance.
`re_match` is Python's `pat.match` (the match must begin at the start of
the string but may cover any prefix); `re_search` is `pat.search`. -/

inductive Regex where
  | nul
  | eps
  | chr (c : Char)
  | dot
  | cls (cs : List Char) (neg : Bool)
  | seq (a b : Regex)
  | alt (a b : Regex)
  | star (a : Regex)
deriving DecidableEq, Repr

def nullable : Regex → Bool
  | .nul => false
  | .eps => true
  | .chr _ => false
  | .dot => false
  | .cls _ _ => false
  | .seq a b => nullable a && nullable b
  | .alt a b => nullable a || nullable b
  | .star _ => true

def deriv : Regex → Char → Regex
  | .nul, _ => .nul
  | .eps, _ => .nul
  | .chr c, a => if a = c then .eps else .nul
  | .dot, a => if a = '\n' then .nul else .eps
  | .cls cs neg, a => if cs.contains a ≠ neg then .eps else .nul
  | .seq r1 r2, a =>
    if nullable r1 then .alt (.seq (deriv r1 a) r2) (deriv r2 a)
    else .seq (deriv r1 a) r2
  | .alt r1 r2, a => .alt (deriv r1 a) (deriv r2 a)
  | .star r, a => .seq (deriv r a) (.star r)

/-- Whole-word acceptance: `s` is fully consumed by `r`. -/
def accepts (r : Regex) (s : List Char) : Bool := nullable (s.foldl deriv r)

/-- Does `r` accept some prefix of the input? -/
def prefAcc : Regex → List Char → Bool
  | r, [] => nullable r
  | r, c :: rest => nullable r || prefAcc (deriv r c) rest

/-- Python `pat.match(s)` truthiness: some prefix of `s` is accepted. -/
def re_match (r : Regex) (s : String) : Bool := prefAcc r s.data

def searchAcc : Regex → List Char → Bool
  | r, [] => nullable r
  | r, c :: rest => prefAcc r (c :: rest) || searchAcc r rest

/-- Python `pat.search(s)` truthiness: a match starting anywhere. -/
def re_search (r : Regex) (s : String) : Bool := searchAcc r s.data

/-! ## The filter specification and `filter_detail` (lines 120-134) -/

/-- The argparse `Namespace` fields consulted by `filter_detail` and the
pruning filter.  `thread = []` models the absent (`None`) thread list:
both are falsy in Python. -/
structure Args where
  level : Option Int := none
  thread : List Regex := []
  start_time : Option Nat := none
  end_time : Option Nat := none
  content : Option Regex := none

/-- Python truthiness of `args.level` (an `int` from argparse): `None` and
`0` are falsy. -/
def levelSet : Option Int → Bool
  | none => false
  | some v => v != 0

/-- Exceptions `filter_detail` can raise: `detail.lv` does not exist on
`Detail` (`AttributeError`), and ordering a non-`datetime` `dt` against a
`datetime` bound raises `TypeError`. -/
inductive PyErr where
  | attrError
  | typeError
deriving DecidableEq, Repr

/-- Lines 128-129: `if args.end_time and detail.dt > args.end_time`. -/
def checkEnd (detail : Detail) (args : Args) : Except PyErr Bool :=
  match args.end_time with
  | none => .ok true
  | some et =>
    match detail.dt with
    | .str _ => .error .typeError
    | .ts t => if et < t then .ok false else .ok true

/-- Lines 126-129: the time-window check.  Both comparisons sit under
`if args.start_time or args.end_time`; NB there is no `dt is None` guard
in the source. -/
def checkTime (detail : Detail) (args : Args) : Except PyErr Bool :=
  if args.start_time.isSome || args.end_time.isSome then
    match args.start_time with
    | none => checkEnd detail args
    | some st =>
      match detail.dt with
      | .str _ => .error .typeError
      | .ts t => if t < st then .ok false else checkEnd detail args
  else .ok true

/-- Line 131-133: `if args.content: if not args.content.search(...)`. -/
def checkContent (detail : Detail) (args : Args) : Bool :=
  match args.content with
  | none => true
  | some pat => re_search pat detail.content

/-- `filter_detail(detail, args)` (lines 120-134).  Line 121 reads
`detail.lv`, an attribute the `Detail` class does not define, so whenever
`args.level` is truthy the call raises `AttributeError` before anything
else is evaluated. -/
def filter_detail (detail : Detail) (args : Args) : Except PyErr Bool :=
  if levelSet args.level then .error .attrError
  else if args.thread ≠ [] && !(args.thread.any fun pat => re_match pat detail.thread) then
    .ok false
  else
    match checkTime detail args with
    | .error e => .error e
    | .ok false => .ok false
    | .ok true => .ok (checkContent detail args)

/-- A record matched without raising: the Boolean used to count results. -/
def passes (args : Args) (d : Detail) : Bool :=
  match filter_detail d args with
  | .ok true => true
  | _ => false

/-! ## The capped query loop of `generate_logs` (lines 276-285) -/

/-- Why the loop of `generate_logs` ended: input exhausted, the 1000-cap
`break`, or an exception from `filter_detail`. -/
inductive LoopEnd where
  | finished
  | stopped
  | failed (e : PyErr)
deriving DecidableEq, Repr

/-- Line 281: the uncapped mode is entered only when
`reqargs.start_time and reqargs.end_time` is truthy. -/
def unbounded (args : Args) : Bool := args.start_time.isSome && args.end_time.isSome

/-- Lines 276-285: `result_count = 0; for detail in ...: if filter_detail:
result_count += 1; if not (start and end) and result_count > 1000: break;
yield detail`. -/
def gen_loop (args : Args) : Nat → List Detail → List Detail × LoopEnd
  | _, [] => ([], .finished)
  | count, d :: ds =>
    match filter_detail d args with
    | .error e => ([], .failed e)
    | .ok false => gen_loop args count ds
    | .ok true =>
      let c := count + 1
      if !unbounded args && c > 1000 then ([], .stopped)
      else
        let (out, e) := gen_loop args c ds
        (d :: out, e)

/-- Errors a query run can surface: a `filter_detail` exception or the
parser's `ValueError` (identified by its composed timestamp string). -/
inductive RunErr where
  | py (e : PyErr)
  | ts (s : String)
deriving DecidableEq, Repr

/-- The consumer view of `generate_logs`'s loop over a lazy `read_file`
stream: the `break` stops pulling, so a parser error beyond the break
point never materializes; if the stream is exhausted, a pending parser
error is raised after the yielded details. -/
def generate_from (stream : List Detail × Option String) (args : Args) :
    List Detail × Option RunErr :=
  match gen_loop args 0 stream.1 with
  | (out, .failed e) => (out, some (.py e))
  | (out, .stopped) => (out, none)
  | (out, .finished) => (out, stream.2.map .ts)

/-- Line 277: the query streams `read_file(files, start_time or end_time)`
through the loop — timestamps are materialized exactly when a time bound
is present. -/
def query_stream (year : Nat) (files : List PFile) (args : Args) :
    List Detail × Option RunErr :=
  generate_from (read_file year files (args.start_time.isSome || args.end_time.isSome)) args

/-! ## File resolution: `filter_file` and `path_to_files` (lines 114-149) -/

/-- `filter_file(file, args)` (lines 114-117): keep a file iff the glob
regex matches its name (Python-`match` semantics), or always when no glob
is set. -/
def filter_file (glob : Option Regex) (fname : String) : Bool :=
  match glob with
  | some g => re_match g fname
  | none => true

/-- Lexicographic code-point comparison of character lists: Python's
string (and single-component `Path`) ordering. -/
def charListLe : List Char → List Char → Bool
  | [], _ => true
  | _ :: _, [] => false
  | a :: as, b :: bs => if a = b then charListLe as bs else decide (a < b)

/-- Python's `<=` on path names. -/
def nameLe (a b : String) : Bool := charListLe a.data b.data

/-- `path_to_files` (lines 137-149): collect the input files, filter them
by the glob, and return them `sorted()` — lexicographically by path, not
in caller-supplied order.  Directory expansion (`rglob`) is filesystem
I/O and is not modelled; sources are supplied as files.  Python's `sorted`
is stable and `Path` order on single-component relative paths is
code-point string order, which a stable insertion sort by name
reproduces. -/
def path_to_files (glob : Option Regex) (inputs : List PFile) : List PFile :=
  List.insertionSort (fun f1 f2 => nameLe f1.name f2.name = true)
    (inputs.filter fun f => filter_file glob f.name)

/-! ## The file summary index: `init_index` (lines 181-208) -/

/-- One value of the per-file index dict: `min_datetime`, `max_datetime`
(initialized to `None`), and the set of thread labels (modelled as a
duplicate-free list; only membership is ever consulted). -/
structure Summary where
  min_datetime : Option Nat
  max_datetime : Option Nat
  thread : List String
deriving DecidableEq, Repr

def updMin (cur : Option Nat) (t : Nat) : Option Nat :=
  match cur with
  | none => some t
  | some m => if t < m then some t else some m

def updMax (cur : Option Nat) (t : Nat) : Option Nat :=
  match cur with
  | none => some t
  | some m => if m < t then some t else some m

def addThread (l : List String) (th : String) : List String :=
  if l.contains th then l else l ++ [th]

/-- Insert-or-update one entry of the index dict for a detail with
timestamp key `t` (lines 187-206). -/
def updEntry (idx : List (String × Summary)) (name : String) (t : Nat) (th : String) :
    List (String × Summary) :=
  match idx with
  | [] => [(name, ⟨some t, some t, [th]⟩)]
  | (n, s) :: rest =>
    if n = name then
      (n, ⟨updMin s.min_datetime t, updMax s.max_datetime t, addThread s.thread th⟩) :: rest
    else (n, s) :: updEntry rest name t th

/-- One iteration of `init_index`'s loop.  `init_index` consumes
`read_file(files, include_dt=True)`, whose details always carry a
materialized timestamp (`read_file_true_ts`); the `.str` branch is
unreachable there. -/
def upd_index (idx : List (String × Summary)) (d : Detail) : List (String × Summary) :=
  match d.dt with
  | .ts t => updEntry idx d.filename t d.thread
  | .str _ => idx

/-- The index built by `init_index`'s loop from a detail stream. -/
def build_index (ds : List Detail) : List (String × Summary) := ds.foldl upd_index []

/-- `search_index.get(pathname)` (line 256). -/
def lookup_index (idx : List (String × Summary)) (name : String) : Option Summary :=
  (idx.find? fun p => p.1 == name).map (·.2)

/-- `init_index` (lines 181-208): one full parser pass with
`include_dt=True` over the resolved files; a parser `ValueError`
propagates and the index is not installed. -/
def init_index (year : Nat) (glob : Option Regex) (inputs : List PFile) :
    Except String (List (String × Summary)) :=
  match read_file year (path_to_files glob inputs) true with
  | (_, some e) => .error e
  | (ds, none) => .ok (build_index ds)

/-! ## Pruning: the `filter_file` inside `generate_logs` (lines 253-274) -/

/-- Lines 269-270: `if reqargs.end_time and reqargs.end_time <
index["min_datetime"]`.  Comparing a `datetime` bound against a `None`
summary field would raise `TypeError` (never reachable for an index built
by `init_index`, whose entries always have both fields set). -/
def checkSummaryMin (s : Summary) (args : Args) : Except PyErr Bool :=
  match args.end_time with
  | some et =>
    match s.min_datetime with
    | none => .error .typeError
    | some mn => if et < mn then .ok false else .ok true
  | none => .ok true

/-- Lines 267-270: the summary time checks, `start_time > max_datetime`
first. -/
def checkSummaryTime (s : Summary) (args : Args) : Except PyErr Bool :=
  match args.start_time with
  | some st =>
    match s.max_datetime with
    | none => .error .typeError
    | some mx => if mx < st then .ok false else checkSummaryMin s args
  | none => checkSummaryMin s args

/-- The inner `filter_file(file)` of `generate_logs` (lines 254-271): a
source absent from the index is always eligible; otherwise it is pruned
when no summary thread matches any thread pattern, or when its time span
misses the window. -/
def filter_file_idx (idx : List (String × Summary)) (args : Args) (fname : String) :
    Except PyErr Bool :=
  match lookup_index idx fname with
  | none => .ok true
  | some s =>
    if args.thread ≠ [] &&
        !(s.thread.any fun th => args.thread.any fun pat => re_match pat th) then
      .ok false
    else checkSummaryTime s args

/-- Line 274: `files = [file for file in files if filter_file(file)]`,
with any exception propagating. -/
def prune_files (idx : List (String × Summary)) (args : Args) :
    List PFile → Except PyErr (List PFile)
  | [] => .ok []
  | f :: fs =>
    match filter_file_idx idx args f.name with
    | .error e => .error e
    | .ok b =>
      match prune_files idx args fs with
      | .error e => .error e
      | .ok rest => .ok (if b then f :: rest else rest)

/-- `generate_logs` (lines 253-285): resolve the files, prune them against
the index, and stream the capped, filtered records. -/
def generate_logs (year : Nat) (idx : List (String × Summary)) (glob : Option Regex)
    (inputs : List PFile) (args : Args) : List Detail × Option RunErr :=
  match prune_files idx args (path_to_files glob inputs) with
  | .error e => ([], some (.py e))
  | .ok files => query_stream year files args

/-! ## Specification-side notions used to state the claims -/

/-- The spec's thread-pattern semantics: "the pattern matches the thread
string beginning at the start of the string", i.e. the pattern accepts
some prefix (possibly proper) of the string. -/
def MatchesAtStart (r : Regex) (s : String) : Prop :=
  ∃ p q, s.data = p ++ q ∧ accepts r p = true

/-- Concatenation of a list of lines (byte-for-byte, newlines included). -/
def strConcat : List String → String
  | [] => ""
  | s :: rest => s ++ strConcat rest

end RLog

namespace RLog

/-! ### Helper lemmas -/

theorem strAppend_assoc (a b c : String) : a ++ b ++ c = a ++ (b ++ c) := by
  apply String.ext
  simp

theorem strAppend_empty (a : String) : a ++ "" = a := by
  apply String.ext
  simp

/-- Everything the pruned `afterComma` returns keeps the supplied level and
thread groups. -/
theorem afterComma_some {lv th s : List Char} {g : HeaderGroups}
    (h : afterComma lv th s = some g) : g.lv = lv ∧ g.thread = th := by
  unfold afterComma at h
  split at h
  · exact absurd h (by simp)
  · split at h
    · exact absurd h (by simp)
    · split at h
      · exact absurd h (by simp)
      · cases h
        exact ⟨rfl, rfl⟩

/-- The lazy thread loop only ever accumulates characters of the thread
class. -/
theorem threadLoop_some_chars {lv : List Char} :
    ∀ {s acc : List Char} {g : HeaderGroups},
      (∀ c ∈ acc, threadChar c = true) → threadLoop lv acc s = some g →
      ∀ c ∈ g.thread, threadChar c = true := by
  intro s
  induction s with
  | nil => intro acc g hacc h; simp [threadLoop] at h
  | cons c rest ih =>
    intro acc g hacc h
    unfold threadLoop at h
    by_cases hc : threadChar c = true
    · simp only [hc, if_true] at h
      have hacc' : ∀ x ∈ acc ++ [c], threadChar x = true := by
        intro x hx
        rcases List.mem_append.mp hx with hx | hx
        · exact hacc x hx
        · simp at hx; subst hx; exact hc
      split at h
      · rename_i r2 heq
        split at h
        · rename_i g' hg'
          cases h
          rcases afterComma_some hg' with ⟨_, hth⟩
          rw [hth]
          exact hacc'
        · exact ih hacc' h
      · exact ih hacc' h
    · simp [hc] at h

/-- `wsLoop` results come from some thread loop started with an empty
accumulator. -/
theorem wsLoop_some_chars {lv : List Char} :
    ∀ {revRun rest : List Char} {g : HeaderGroups},
      wsLoop lv revRun rest = some g → ∀ c ∈ g.thread, threadChar c = true := by
  intro revRun
  induction revRun with
  | nil =>
    intro rest g h
    exact threadLoop_some_chars (by simp) h
  | cons c rr ih =>
    intro rest g h
    unfold wsLoop at h
    split at h
    · rename_i g' hg'
      cases h
      exact threadLoop_some_chars (by simp) hg'
    · exact ih h

/-- `levelLoop` results come from some `wsLoop`. -/
theorem levelLoop_some_chars :
    ∀ {revRun rest : List Char} {g : HeaderGroups},
      levelLoop revRun rest = some g → ∀ c ∈ g.thread, threadChar c = true := by
  intro revRun
  induction revRun with
  | nil => intro rest g h; simp [levelLoop] at h
  | cons c rr ih =>
    intro rest g h
    unfold levelLoop at h
    split at h
    · rename_i g' hg'
      cases h
      exact wsLoop_some_chars hg'
    · exact ih h

/-- Every thread label captured by the header pattern consists of
characters of the thread class. -/
theorem matchHeader_thread_chars {line : String} {g : HeaderGroups}
    (h : matchHeader line = some g) : ∀ c ∈ g.thread, threadChar c = true := by
  unfold matchHeader at h
  split at h
  · split at h
    · simp at h
    · exact levelLoop_some_chars h
  · simp at h

/-- Acceptance after a derivative is acceptance of the extended word. -/
theorem accepts_deriv (r : Regex) (c : Char) (p : List Char) :
    accepts (deriv r c) p = accepts r (c :: p) := rfl

/-- `prefAcc` decides "some prefix is accepted". -/
theorem prefAcc_iff :
    ∀ (l : List Char) (r : Regex),
      prefAcc r l = true ↔ ∃ p q, l = p ++ q ∧ accepts r p = true := by
  intro l
  induction l with
  | nil =>
    intro r
    constructor
    · intro h
      exact ⟨[], [], rfl, h⟩
    · rintro ⟨p, q, hpq, hacc⟩
      rcases List.append_eq_nil.mp hpq.symm with ⟨hp, _⟩
      subst hp
      exact hacc
  | cons c rest ih =>
    intro r
    simp only [prefAcc, Bool.or_eq_true]
    constructor
    · rintro (h | h)
      · exact ⟨[], c :: rest, rfl, h⟩
      · rcases (ih (deriv r c)).mp h with ⟨p, q, hpq, hacc⟩
        exact ⟨c :: p, q, by rw [hpq]; rfl, by rw [← accepts_deriv]; exact hacc⟩
    · rintro ⟨p, q, hpq, hacc⟩
      cases p with
      | nil =>
        left
        exact hacc
      | cons c' p' =>
        right
        injection hpq with h1 h2
        subst h1
        exact (ih (deriv r c)).mpr ⟨p', q, h2, by rw [accepts_deriv]; exact hacc⟩

/-- `pat.match` truthiness coincides with the spec's match-at-start
semantics. -/
theorem re_match_iff (r : Regex) (s : String) :
    re_match r s = true ↔ MatchesAtStart r s :=
  prefAcc_iff s.data r

/-- Appending non-header continuation lines to an open record appends each
line verbatim to both `content` and `raw`. -/
theorem runLines_conts (year : Nat) (b : Bool) (fname : String) :
    ∀ (conts : List String) (d : Detail), (∀ c ∈ conts, matchHeader c = none) →
      runLines year b fname (some d, true) conts =
        ([], .ok (some { d with content := d.content ++ strConcat conts,
                                raw := d.raw ++ strConcat conts }, true)) := by
  intro conts
  induction conts with
  | nil =>
    intro d h
    simp [runLines, strConcat, strAppend_empty]
  | cons c cs ih =>
    intro d h
    have hc : matchHeader c = none := h c (by simp)
    have hcs : ∀ x ∈ cs, matchHeader x = none := fun x hx => h x (by simp [hx])
    simp only [runLines, stepLine, hc]
    rw [ih { d with content := d.content ++ c, raw := d.raw ++ c } hcs]
    simp [strConcat, strAppend_assoc]

/-! ### C1 -/

/-- C1, counterexample: for the header line `[A b,01-02 03:04:05.1]:x\n`
followed by one continuation line `y\n`, the emitted record's `raw` is the
**stripped** header concatenated with the continuation line — the header's
trailing newline is gone, so `raw` is not the byte-for-byte concatenation
of the two input lines. -/
theorem claim1_cex :
    (read_file 2025 [⟨"a.log", ["[A b,01-02 03:04:05.1]:x\n", "y\n"]⟩] false).1.map
        (fun d => d.raw) = ["[A b,01-02 03:04:05.1]:xy\n"]
    ∧ (read_file 2025 [⟨"a.log", ["[A b,01-02 03:04:05.1]:x\n", "y\n"]⟩] false).1.map
        (fun d => d.raw) ≠ [strConcat ["[A b,01-02 03:04:05.1]:x\n", "y\n"]] := by
  decide

/-- C1, amended: for a header line followed by N non-header lines, the
Record's `raw` equals `line.strip()` of the header — leading/trailing
whitespace, including the trailing newline, removed — concatenated with
the N continuation lines byte-for-byte (their embedded newlines
preserved); `content` likewise appends the continuation lines verbatim
after the captured content group. -/
theorem claim1_raw_reconstruction (year : Nat) (name h : String) (conts : List String)
    (g : HeaderGroups) (hm : matchHeader h = some g)
    (hc : ∀ c ∈ conts, matchHeader c = none) :
    read_file year [⟨name, h :: conts⟩] false =
      ([⟨name, String.mk g.lv, String.mk g.thread, .str (String.mk g.ts),
          String.mk g.content ++ strConcat conts, pyStrip h ++ strConcat conts⟩], none) := by
  simp only [read_file, runFiles, runLines, stepLine, hm, if_neg Bool.false_ne_true]
  rw [runLines_conts year false name conts _ hc]
  rfl

/-- C1 witness: the amended statement evaluated on the spec's concrete
scenario (a header plus two stack-frame lines). -/
theorem claim1_witness :
    read_file 2025 [⟨"w.log", ["[INFO worker-1,05-12 10:00:00.123456]: started job\n",
        "  stack frame A\n", "  stack frame B\n"]⟩] false =
      ([⟨"w.log", String.mk "INFO".data, String.mk "worker-1".data,
          .str (String.mk "05-12 10:00:00.123456".data),
          String.mk " started job".data ++ strConcat ["  stack frame A\n", "  stack frame B\n"],
          pyStrip "[INFO worker-1,05-12 10:00:00.123456]: started job\n" ++
            strConcat ["  stack frame A\n", "  stack frame B\n"]⟩], none) :=
  claim1_raw_reconstruction 2025 "w.log" "[INFO worker-1,05-12 10:00:00.123456]: started job\n"
    ["  stack frame A\n", "  stack frame B\n"]
    ⟨"INFO".data, "worker-1".data, "05-12 10:00:00.123456".data, " started job".data⟩
    (by decide) (by decide)

/-! ### C2 -/

/-- C2: the claim says the level criterion returns a Boolean decision
without raising, but line 121 reads `detail.lv`, an attribute `Detail`
does not define (the field is `level`), so any truthy numeric level filter
makes `filter_detail` raise `AttributeError` on every record.  The code
contradicts the documented intent; evaluated here at a failing input. -/
theorem claim2_level_filter_raises :
    filter_detail ⟨"a.log", "INFO", "t", .str "05-12 10:00:00.1", " msg",
        "[INFO t,05-12 10:00:00.1]: msg"⟩ { level := some 3 } = .error .attrError := by
  decide

/-! ### C5 -/

/-- C5, counterexample: two runs over different sources with different raw
lines but the same timestamp text produce **equal** malformed-timestamp
conditions, so the propagated condition cannot identify the offending
source or the raw line (it identifies only the composed timestamp text). -/
theorem claim5_cex :
    (read_file 2025 [⟨"a.log", ["[A b,13-13 10:00:00.1]:x\n"]⟩] true).2
      = (read_file 2025 [⟨"b.log", ["  [A b,13-13 10:00:00.1]:  other\n"]⟩] true).2
    ∧ (read_file 2025 [⟨"a.log", ["[A b,13-13 10:00:00.1]:x\n"]⟩] true).2 ≠ none
    ∧ ("a.log" : String) ≠ "b.log"
    ∧ ("[A b,13-13 10:00:00.1]:x\n" : String) ≠ "  [A b,13-13 10:00:00.1]:  other\n" := by
  decide

/-- C5, amended: when timestamp materialization is requested and a
header's timestamp text fails to parse, the parser propagates the
`ValueError` to the caller — nothing is yielded for that line, the record
is not silently skipped or coerced — but the condition identifies only the
composed timestamp text `f"{year}-{dt}"`, not the offending source or raw
line. -/
theorem claim5_malformed_timestamp (year : Nat) (name line : String) (g : HeaderGroups)
    (hm : matchHeader line = some g) (hp : parseTs year g.ts = none) :
    read_file year [⟨name, [line]⟩] true = ([], some (composeIso year (String.mk g.ts))) := by
  simp [read_file, runFiles, runLines, stepLine, hm, hp]

/-- C5 witness: the amended statement at a concrete malformed input
(month 13). -/
theorem claim5_witness :
    read_file 2025 [⟨"c.log", ["[A b,13-13 10:00:00.1]:x\n"]⟩] true
      = ([], some (composeIso 2025 (String.mk "13-13 10:00:00.1".data))) :=
  claim5_malformed_timestamp 2025 "c.log" "[A b,13-13 10:00:00.1]:x\n"
    ⟨"A".data, "b".data, "13-13 10:00:00.1".data, "x".data⟩ (by decide) (by decide)

/-! ### C6 -/

/-- C6, counterexample: the thread character class of `pattern` includes
`,`, `[` and `]`, and the lazy group extends past commas/brackets when the
following text only later forms a valid `,timestamp]:` suffix — so lines
whose thread field contains `,` or `]` are accepted as headers with that
thread value. -/
theorem claim6_cex :
    (matchHeader "[INFO a,b,01-02 03:04:05.123456]: x\n").map (fun g => String.mk g.thread)
        = some "a,b"
    ∧ ("a,b".data.contains ',' = true)
    ∧ (matchHeader "[INFO a]b,01-02 03:04:05.123456]: x\n").map (fun g => String.mk g.thread)
        = some "a]b"
    ∧ ("a]b".data.contains ']' = true) := by
  decide

/-- C6, amended: every character of a captured thread label belongs to the
pattern's thread character class — which itself contains `,` and `]`, so
captured thread labels can contain commas and closing brackets. -/
theorem claim6_thread_class :
    (∀ (line : String) (g : HeaderGroups), matchHeader line = some g →
        ∀ c ∈ g.thread, threadChar c = true)
    ∧ threadChar ',' = true ∧ threadChar ']' = true := by
  refine ⟨?_, by decide, by decide⟩
  intro line g h
  exact matchHeader_thread_chars h

/-- C6 witness: the amended statement applied to a concrete accepted
header line, for the comma character of its captured thread. -/
theorem claim6_witness : threadChar ',' = true :=
  claim6_thread_class.1 "[INFO a,b,01-02 03:04:05.123456]: x\n"
    ⟨"INFO".data, "a,b".data, "01-02 03:04:05.123456".data, " x".data⟩
    (by decide) ',' (by decide)

/-! ### C8 -/

/-- C8: with one or more thread patterns configured (and no other
criteria), a record passes `filter_detail` iff at least one pattern
matches the thread string with Python-`match` semantics: the pattern
accepts some prefix of the string (partial, not whole-string; OR across
the patterns). -/
theorem claim8_thread_patterns (d : Detail) (pats : List Regex) (hne : pats ≠ []) :
    filter_detail d { thread := pats } = .ok true ↔ ∃ r ∈ pats, MatchesAtStart r d.thread := by
  by_cases hany : pats.any (fun pat => re_match pat d.thread) = true
  · simp only [filter_detail, levelSet, checkTime, checkEnd, checkContent, hne, hany,
      ne_eq, not_false_iff, decide_True, Bool.not_true, Bool.and_false,
      Bool.false_eq_true, if_false, Option.isSome_none, Bool.or_self, Option.isSome,
      if_neg Bool.false_ne_true]
    simp only [List.any_eq_true] at hany
    rcases hany with ⟨r, hr, hmatch⟩
    constructor
    · intro _
      exact ⟨r, hr, (re_match_iff r d.thread).mp hmatch⟩
    · intro _
      trivial
  · simp only [Bool.not_eq_true] at hany
    simp only [filter_detail, levelSet, hne, hany, ne_eq, not_false_iff, decide_True,
      Bool.not_false, Bool.and_true, if_true, if_neg Bool.false_ne_true]
    constructor
    · intro h
      exact absurd h (by simp)
    · rintro ⟨r, hr, hm⟩
      have h1 : re_match r d.thread = true := (re_match_iff r d.thread).mpr hm
      have h2 : pats.any (fun pat => re_match pat d.thread) = true :=
        List.any_eq_true.mpr ⟨r, hr, h1⟩
      rw [hany] at h2
      cases h2

/-- C8 witness: the pattern `w` matches thread `worker-1` by accepting the
proper prefix `w` — partial-match semantics anchored at the start. -/
theorem claim8_witness :
    filter_detail ⟨"a.log", "INFO", "worker-1", .str "t", "c", "r"⟩
      { thread := [.chr 'w'] } = .ok true :=
  (claim8_thread_patterns _ _ (by simp)).mpr
    ⟨.chr 'w', by simp, ⟨['w'], "orker-1".data, by decide, by decide⟩⟩

/-! ### C9 -/

/-- C9, counterexample: `filter_detail` has no `dt is None` guard — for a
record whose timestamp was not materialized, a configured time window
makes the comparison at line 127 raise `TypeError` instead of keeping the
record, so "a record with no timestamp is never excluded on this basis"
fails as stated. -/
theorem claim9_cex :
    filter_detail ⟨"a.log", "A", "t", .str "05-12 10:00:00.1", "c", "r"⟩
        { start_time := some 100 } = .error .typeError
    ∧ (Except.error PyErr.typeError : Except PyErr Bool) ≠ .ok true := by
  decide

/-- C9, amended: for records carrying a materialized timestamp (which is
every record the pipeline feeds to a time-windowed filter, since a time
bound forces `include_dt=True`), the record is excluded exactly when its
timestamp lies strictly outside the inclusive `[start_time, end_time]`
window — equality with a bound keeps it; a record whose timestamp is not
materialized instead raises `TypeError` when a window is set. -/
theorem claim9_time_window (d : Detail) (args : Args) (t : Nat)
    (hl : levelSet args.level = false) (hth : args.thread = []) (hc : args.content = none)
    (ht : d.dt = .ts t) :
    filter_detail d args = .ok false ↔
      (∃ st, args.start_time = some st ∧ t < st) ∨
      (∃ et, args.end_time = some et ∧ et < t) := by
  have hent : (decide (args.thread ≠ [])) = false := by simp [hth]
  simp only [filter_detail, hl, if_neg Bool.false_ne_true, hent, Bool.false_and,
    if_neg Bool.false_ne_true]
  rcases hs : args.start_time with _ | st <;> rcases he : args.end_time with _ | et <;>
    simp [checkTime, checkEnd, checkContent, ht, hs, he, hc] <;> split_ifs <;> simp_all <;> omega

/-- C9 witness: a record exactly at the end bound is kept (both bound
comparisons are non-strict). -/
theorem claim9_witness :
    ¬ (filter_detail ⟨"a.log", "A", "t", .ts 200, "c", "r"⟩
        { start_time := some 100, end_time := some 200 } = .ok false) := by
  rw [claim9_time_window ⟨"a.log", "A", "t", .ts 200, "c", "r"⟩
    { start_time := some 100, end_time := some 200 } 200 rfl rfl rfl rfl]
  rintro (⟨st, hst, hlt⟩ | ⟨et, het, hgt⟩)
  · cases hst; omega
  · cases het; omega

/-! ### Decomposition of `read_file` into per-file runs

The open detail carried across a file boundary is frozen there
(`should_concat_line` resets to `False`) and is emitted at the next header
or at end of input, so the full output is the per-file outputs in file
order. -/

theorem runLines_no_header (year : Nat) (b : Bool) (fname : String) :
    ∀ (lines : List String) (st : PState), (∀ l ∈ lines, matchHeader l = none) →
      st.2 = false → runLines year b fname st lines = ([], .ok st) := by
  intro lines
  induction lines with
  | nil => intro st _ _; rfl
  | cons l ls ih =>
    intro st h hf
    have hl : matchHeader l = none := h l (by simp)
    obtain ⟨d?, flag⟩ := st
    simp only at hf
    subst hf
    simp only [runLines, stepLine, hl]
    cases d? with
    | none => simp [ih (none, false) (fun x hx => h x (by simp [hx])) rfl]
    | some v => simp [ih (some v, false) (fun x hx => h x (by simp [hx])) rfl]

theorem runLines_carry (year : Nat) (b : Bool) (fname : String) :
    ∀ (lines : List String) (d0 : Detail),
      lines.any (fun l => (matchHeader l).isSome) = true →
      runLines year b fname (some d0, false) lines =
        (d0 :: (runLines year b fname (none, false) lines).1,
         (runLines year b fname (none, false) lines).2) := by
  intro lines
  induction lines with
  | nil => intro d0 h; simp at h
  | cons l ls ih =>
    intro d0 h
    rcases hm : matchHeader l with _ | g
    · have h' : ls.any (fun l => (matchHeader l).isSome) = true := by
        simpa [hm] using h
      simp only [runLines, stepLine, hm]
      simp [ih d0 h']
    · simp only [runLines, stepLine, hm]
      cases b
      · simp
      · rcases hp : parseTs year g.ts with _ | t <;> simp [hp]

theorem runFiles_per_file_ok (year : Nat) (b : Bool) :
    ∀ (files : List PFile) (carry : Option Detail) (es : List Detail)
      (c : Option Detail), runFiles year b carry files = (es, .ok c) →
      ∀ f ∈ files, ∃ es' c', runLines year b f.name (none, false) f.lines = (es', .ok c') := by
  intro files
  induction files with
  | nil => intro carry es c _ f hf; simp at hf
  | cons f0 fs ih =>
    intro carry es c hrun f hf
    have hL : ∃ es1 c1, runLines year b f0.name (carry, false) f0.lines = (es1, .ok c1) := by
      rcases hx : runLines year b f0.name (carry, false) f0.lines with ⟨es1, r1⟩
      cases r1 with
      | error e => simp [runFiles, hx] at hrun
      | ok c1 => exact ⟨es1, c1, rfl⟩
    rcases hL with ⟨es1, c1, hL⟩
    rcases List.mem_cons.mp hf with hf | hf
    · subst hf
      cases carry with
      | none => exact ⟨es1, c1, hL⟩
      | some d0 =>
        by_cases hany : f.lines.any (fun l => (matchHeader l).isSome) = true
        · rw [runLines_carry year b f.name f.lines d0 hany] at hL
          rcases hx : runLines year b f.name (none, false) f.lines with ⟨es2, r2⟩
          rw [hx] at hL
          cases r2 with
          | error e => simp at hL
          | ok c2 => exact ⟨es2, c2, rfl⟩
        · have hnone : ∀ l ∈ f.lines, matchHeader l = none := by
            intro l hl
            rcases hml : matchHeader l with _ | g
            · rfl
            · exact absurd (List.any_eq_true.mpr ⟨l, hl, by simp [hml]⟩) hany
          exact ⟨[], (none, false), runLines_no_header year b f.name f.lines (none, false) hnone rfl⟩
    · rcases hc1 : c1 with ⟨carry', flag⟩
      subst hc1
      rcases hy : runFiles year b carry' fs with ⟨es2, r2⟩
      cases r2 with
      | error e => simp [runFiles, hL, hy] at hrun
      | ok c2 => exact ih carry' es2 c2 hy f hf

theorem runFiles_decomp (year : Nat) (b : Bool) :
    ∀ (files : List PFile) (carry : Option Detail),
      (∀ f ∈ files, ∃ es' c', runLines year b f.name (none, false) f.lines = (es', .ok c')) →
      ∃ es c, runFiles year b carry files = (es, .ok c) ∧
        es ++ c.toList = carry.toList ++ files.flatMap (fun f => (read_file year [f] b).1) := by
  intro files
  induction files with
  | nil => intro carry _; exact ⟨[], carry, rfl, by simp⟩
  | cons f fs ih =>
    intro carry hok
    rcases hok f (by simp) with ⟨es0, c0, h0⟩
    rcases hc0 : c0 with ⟨t0, flag0⟩
    subst hc0
    have hone : (read_file year [f] b).1 = es0 ++ t0.toList := by
      simp [read_file, runFiles, h0]
    by_cases hany : f.lines.any (fun l => (matchHeader l).isSome) = true
    · -- the carry is emitted at the first header of `f`
      cases carry with
      | none =>
        rcases ih t0 (fun g hg => hok g (by simp [hg])) with ⟨es2, c2, h2, he2⟩
        refine ⟨es0 ++ es2, c2, by simp [runFiles, h0, h2], ?_⟩
        simp only [List.flatMap_cons, hone]
        rw [List.append_assoc, he2]
        simp
      | some d0 =>
        have hcar := runLines_carry year b f.name f.lines d0 hany
        rw [h0] at hcar
        rcases ih t0 (fun g hg => hok g (by simp [hg])) with ⟨es2, c2, h2, he2⟩
        refine ⟨(d0 :: es0) ++ es2, c2, by simp [runFiles, hcar, h2], ?_⟩
        simp only [List.flatMap_cons, hone]
        rw [List.append_assoc, he2]
        simp
    · -- no header in `f`: nothing happens, the carry passes through
      have hnone : ∀ l ∈ f.lines, matchHeader l = none := by
        intro l hl
        rcases hml : matchHeader l with _ | g
        · rfl
        · exact absurd (List.any_eq_true.mpr ⟨l, hl, by simp [hml]⟩) hany
      have hstay := runLines_no_header year b f.name f.lines (carry, false) hnone rfl
      have hzero := runLines_no_header year b f.name f.lines (none, false) hnone rfl
      rw [hzero] at h0
      have hes0 : es0 = [] := by cases h0; rfl
      have ht0 : t0 = none := by cases h0; rfl
      rcases ih carry (fun g hg => hok g (by simp [hg])) with ⟨es2, c2, h2, he2⟩
      refine ⟨es2, c2, by simp [runFiles, hstay, h2], ?_⟩
      rw [he2]
      simp [hone, hes0, ht0]

/-- Under an error-free run, `read_file` over many files is the
concatenation, in file order, of the single-file runs. -/
theorem read_file_flatMap (year : Nat) (b : Bool) (files : List PFile)
    (h : (read_file year files b).2 = none) :
    (read_file year files b).1 = files.flatMap (fun f => (read_file year [f] b).1) := by
  rcases hr : runFiles year b none files with ⟨es, r⟩
  cases r with
  | error e => simp [read_file, hr] at h
  | ok c =>
    have hok := runFiles_per_file_ok year b files none es c hr
    rcases runFiles_decomp year b files none hok with ⟨es2, c2, h2, he2⟩
    rw [hr] at h2
    have hes : es2 = es := by cases h2; rfl
    have hc : c2 = c := by cases h2; rfl
    subst hes
    subst hc
    simpa [read_file, hr] using he2

/-! ### Invariants of the records `read_file` produces -/

/-- Generic invariant: a property that holds of every freshly created
detail and is preserved by appending continuation lines holds of the open
detail and of everything `runLines` emits. -/
theorem runLines_inv (year : Nat) (b : Bool) (fname : String) (P : Detail → Prop)
    (hnewT : ∀ (g : HeaderGroups) (line : String) (t : Nat),
      P ⟨fname, String.mk g.lv, String.mk g.thread, .ts t, String.mk g.content, pyStrip line⟩)
    (hnewS : b = false → ∀ (g : HeaderGroups) (line : String),
      P ⟨fname, String.mk g.lv, String.mk g.thread, .str (String.mk g.ts),
          String.mk g.content, pyStrip line⟩)
    (happ : ∀ (d : Detail) (line : String), P d →
      P { d with content := d.content ++ line, raw := d.raw ++ line }) :
    ∀ (lines : List String) (st : PState), (∀ d, st.1 = some d → P d) →
      (∀ d ∈ (runLines year b fname st lines).1, P d) ∧
      (∀ st' d, (runLines year b fname st lines).2 = .ok st' → st'.1 = some d → P d) := by
  intro lines
  induction lines with
  | nil =>
    intro st hst
    refine ⟨by simp [runLines], ?_⟩
    intro st' d h hd
    cases h
    exact hst d hd
  | cons l ls ih =>
    intro st hst
    rcases hm : matchHeader l with _ | g
    · -- continuation or dropped line
      rcases st with ⟨d?, flag⟩
      rcases d? with _ | d
      · simpa [runLines, stepLine, hm] using ih (none, flag) (by simp)
      · cases flag
        · simpa [runLines, stepLine, hm] using ih (some d, false) (by
            intro x hx; cases hx; exact hst d rfl)
        · simpa [runLines, stepLine, hm] using
            ih (some { d with content := d.content ++ l, raw := d.raw ++ l }, true) (by
              intro x hx
              cases hx
              exact happ d l (hst d rfl))
    · -- header line: emit the open detail, start a new one
      cases b
      · have hrec := ih (some ⟨fname, String.mk g.lv, String.mk g.thread,
          .str (String.mk g.ts), String.mk g.content, pyStrip l⟩, true) (by
            intro x hx
            cases hx
            exact hnewS rfl g l)
        rcases st with ⟨d?, flag⟩
        rcases d? with _ | d
        · simpa [runLines, stepLine, hm] using hrec
        · constructor
          · intro x hx
            simp [runLines, stepLine, hm] at hx
            rcases hx with hx | hx
            · rw [hx]
              exact hst d rfl
            · exact hrec.1 x hx
          · intro st' x h hx
            simp only [runLines, stepLine, hm] at h
            exact hrec.2 st' x h hx
      · rcases hp : parseTs year g.ts with _ | t
        · -- parse failure: no new detail, no emission beyond the old one
          rcases st with ⟨d?, flag⟩
          rcases d? with _ | d
          · simp [runLines, stepLine, hm, hp]
          · refine ⟨?_, by simp [runLines, stepLine, hm, hp]⟩
            intro x hx
            simp [runLines, stepLine, hm, hp] at hx
            subst hx
            exact hst x rfl
        · have hrec := ih (some ⟨fname, String.mk g.lv, String.mk g.thread,
            .ts t, String.mk g.content, pyStrip l⟩, true) (by
              intro x hx
              cases hx
              exact hnewT g l t)
          rcases st with ⟨d?, flag⟩
          rcases d? with _ | d
          · simpa [runLines, stepLine, hm, hp] using hrec
          · constructor
            · intro x hx
              simp [runLines, stepLine, hm, hp] at hx
              rcases hx with hx | hx
              · rw [hx]
                exact hst d rfl
              · exact hrec.1 x hx
            · intro st' x h hx
              simp only [runLines, stepLine, hm, hp] at h
              exact hrec.2 st' x h hx

/-- Generic invariant over a whole `read_file` run, for properties that do
not depend on the file name. -/
theorem read_file_inv (year : Nat) (b : Bool) (P : Detail → Prop)
    (hnewT : ∀ (fname : String) (g : HeaderGroups) (line : String) (t : Nat),
      P ⟨fname, String.mk g.lv, String.mk g.thread, .ts t, String.mk g.content, pyStrip line⟩)
    (hnewS : b = false → ∀ (fname : String) (g : HeaderGroups) (line : String),
      P ⟨fname, String.mk g.lv, String.mk g.thread, .str (String.mk g.ts),
          String.mk g.content, pyStrip line⟩)
    (happ : ∀ (d : Detail) (line : String), P d →
      P { d with content := d.content ++ line, raw := d.raw ++ line }) :
    ∀ (files : List PFile), ∀ d ∈ (read_file year files b).1, P d := by
  have main : ∀ (files : List PFile) (carry : Option Detail),
      (∀ d, carry = some d → P d) →
      (∀ d ∈ (runFiles year b carry files).1, P d) ∧
      (∀ c d, (runFiles year b carry files).2 = .ok c → c = some d → P d) := by
    intro files
    induction files with
    | nil =>
      intro carry hc
      refine ⟨by simp [runFiles], ?_⟩
      intro c d h hd
      cases h
      exact hc d hd
    | cons f fs ih =>
      intro carry hc
      have hL := runLines_inv year b f.name P (hnewT f.name) (fun hb g line => hnewS hb f.name g line)
        happ f.lines (carry, false) (by intro d hd; exact hc d hd)
      rcases hx : runLines year b f.name (carry, false) f.lines with ⟨es1, r1⟩
      rw [hx] at hL
      cases r1 with
      | error e =>
        refine ⟨?_, by simp [runFiles, hx]⟩
        intro d hd
        simp only [runFiles, hx] at hd
        exact hL.1 d hd
      | ok c1 =>
        rcases c1 with ⟨carry', flag⟩
        have hrec := ih carry' (fun d hd => hL.2 (carry', flag) d rfl (by rw [hd]))
        rcases hy : runFiles year b carry' fs with ⟨es2, r2⟩
        rw [hy] at hrec
        constructor
        · intro d hd
          simp only [runFiles, hx, hy] at hd
          rcases List.mem_append.mp hd with hd | hd
          · exact hL.1 d hd
          · exact hrec.1 d hd
        · intro c d h hd
          simp only [runFiles, hx, hy] at h
          exact hrec.2 c d h hd
  intro files d hd
  rcases hr : runFiles year b none files with ⟨es, r⟩
  have h0 := main files none (by intro x hx; cases hx)
  rw [hr] at h0
  cases r with
  | error e =>
    simp only [read_file, hr] at hd
    exact h0.1 d hd
  | ok c =>
    simp only [read_file, hr] at hd
    rcases List.mem_append.mp hd with hd | hd
    · exact h0.1 d hd
    · rcases c with _ | c0
      · simp at hd
      · simp at hd
        subst hd
        exact h0.2 (some d) d rfl rfl

/-- Every record of a `read_file(files, include_dt=True)` run carries a
materialized timestamp. -/
theorem read_file_true_ts (year : Nat) (files : List PFile) :
    ∀ d ∈ (read_file year files true).1, ∃ t, d.dt = .ts t := by
  refine read_file_inv year true (fun d => ∃ t, d.dt = .ts t) ?_ ?_ ?_ files
  · intro fname g line t
    exact ⟨t, rfl⟩
  · intro hb
    cases hb
  · intro d line ⟨t, ht⟩
    exact ⟨t, ht⟩

/-- Every record of a single-file run is attributed to that file. -/
theorem read_file_single_filename (year : Nat) (b : Bool) (f : PFile) :
    ∀ d ∈ (read_file year [f] b).1, d.filename = f.name := by
  intro d hd
  have hL := runLines_inv year b f.name (fun d => d.filename = f.name)
    (fun g line t => rfl) (fun _ g line => rfl) (fun d line h => h) f.lines (none, false)
    (by intro x hx; cases hx)
  rcases hx : runLines year b f.name (none, false) f.lines with ⟨es1, r1⟩
  rw [hx] at hL
  cases r1 with
  | error e =>
    simp only [read_file, runFiles, hx] at hd
    exact hL.1 d hd
  | ok c1 =>
    rcases c1 with ⟨carry', flag⟩
    simp only [read_file, runFiles, hx] at hd
    simp at hd
    rcases hd with hd | hd
    · exact hL.1 d hd
    · exact hL.2 (carry', flag) d rfl hd

/-- Mapping a function that is constant on a list yields a replicate. -/
theorem map_const_of_mem {α β : Type} (g : α → β) (c : β) :
    ∀ (l : List α), (∀ x ∈ l, g x = c) → l.map g = List.replicate l.length c := by
  intro l
  induction l with
  | nil => intro _; rfl
  | cons a as ih =>
    intro h
    simp [List.replicate_succ, h a (by simp), ih (fun x hx => h x (by simp [hx]))]

/-- `flatMap` respects pointwise equality on the list's members. -/
theorem flatMap_congr_mem {α β : Type} {l : List α} {f g : α → List β}
    (h : ∀ x ∈ l, f x = g x) : l.flatMap f = l.flatMap g := by
  induction l with
  | nil => rfl
  | cons a as ih =>
    simp only [List.flatMap_cons, h a (by simp)]
    rw [ih (fun x hx => h x (by simp [hx]))]

/-- The name order is total. -/
theorem charListLe_total : ∀ (l1 l2 : List Char),
    charListLe l1 l2 = true ∨ charListLe l2 l1 = true := by
  intro l1
  induction l1 with
  | nil => intro l2; left; rfl
  | cons a as ih =>
    intro l2
    cases l2 with
    | nil => right; rfl
    | cons b bs =>
      by_cases hab : a = b
      · subst hab
        rcases ih bs with h | h
        · left; simpa [charListLe] using h
        · right; simpa [charListLe] using h
      · rcases lt_or_gt_of_ne hab with h | h
        · left
          simp [charListLe, hab, h]
        · right
          simp [charListLe, Ne.symm hab, h]

/-- The name order is transitive. -/
theorem charListLe_trans : ∀ (l1 l2 l3 : List Char),
    charListLe l1 l2 = true → charListLe l2 l3 = true → charListLe l1 l3 = true := by
  intro l1
  induction l1 with
  | nil => intro l2 l3 _ _; rfl
  | cons a as ih =>
    intro l2 l3 h12 h23
    cases l2 with
    | nil => simp [charListLe] at h12
    | cons b bs =>
      cases l3 with
      | nil => simp [charListLe] at h23
      | cons c cs =>
        by_cases hab : a = b <;> by_cases hbc : b = c
        · subst hab; subst hbc
          simp only [charListLe, if_pos rfl] at h12 h23 ⊢
          exact ih bs cs h12 h23
        · subst hab
          simpa [charListLe, hbc] using h23
        · subst hbc
          simpa [charListLe, hab] using h12
        · have h1 : a < b := by simpa [charListLe, hab] using h12
          have h2 : b < c := by simpa [charListLe, hbc] using h23
          have h3 : a < c := lt_trans h1 h2
          simp [charListLe, ne_of_lt h3, h3]

/-! ### C7 -/

/-- C7, counterexample: with sources supplied in the caller order
`b.log, a.log`, the pipeline emits the record of `a.log` first —
`path_to_files` sorts the resolved files (line 148), so output order is
not the caller-supplied source order. -/
theorem claim7_cex :
    (read_file 2025 (path_to_files none
        [⟨"b.log", ["[B t,01-02 03:04:05.1]:b\n"]⟩, ⟨"a.log", ["[A t,01-02 03:04:05.1]:a\n"]⟩])
        false).1.map (fun d => d.filename) = ["a.log", "b.log"]
    ∧ (["a.log", "b.log"] : List String) ≠ ["b.log", "a.log"] := by
  decide

/-- C7, amended: the orchestrator sorts the glob-filtered sources
lexicographically by path, and records are then produced strictly in that
sorted order — grouped by source, each source's block in sorted position —
rather than in the caller-supplied order. -/
theorem claim7_source_order (year : Nat) (b : Bool) (glob : Option Regex)
    (inputs : List PFile)
    (h : (read_file year (path_to_files glob inputs) b).2 = none) :
    (path_to_files glob inputs).Pairwise (fun f1 f2 => nameLe f1.name f2.name = true)
    ∧ (read_file year (path_to_files glob inputs) b).1.map (fun d => d.filename)
        = (path_to_files glob inputs).flatMap
            (fun f => List.replicate (read_file year [f] b).1.length f.name) := by
  constructor
  · haveI : IsTotal PFile (fun f1 f2 => nameLe f1.name f2.name = true) :=
      ⟨fun f1 f2 => charListLe_total f1.name.data f2.name.data⟩
    haveI : IsTrans PFile (fun f1 f2 => nameLe f1.name f2.name = true) :=
      ⟨fun _ _ _ h1 h2 => charListLe_trans _ _ _ h1 h2⟩
    exact List.sorted_insertionSort _ _
  · rw [read_file_flatMap year b _ h, List.map_flatMap]
    apply flatMap_congr_mem
    intro f _
    exact map_const_of_mem _ _ _ (read_file_single_filename year b f)

/-- C7 witness: the amended statement at concrete sources supplied in
caller order `b.log, a.log`. -/
theorem claim7_witness :
    (path_to_files none [⟨"b.log", ["[B t,01-02 03:04:05.1]:b\n"]⟩,
        ⟨"a.log", ["[A t,01-02 03:04:05.1]:a\n"]⟩]).Pairwise
      (fun f1 f2 => nameLe f1.name f2.name = true)
    ∧ (read_file 2025 (path_to_files none [⟨"b.log", ["[B t,01-02 03:04:05.1]:b\n"]⟩,
          ⟨"a.log", ["[A t,01-02 03:04:05.1]:a\n"]⟩]) false).1.map (fun d => d.filename)
        = (path_to_files none [⟨"b.log", ["[B t,01-02 03:04:05.1]:b\n"]⟩,
            ⟨"a.log", ["[A t,01-02 03:04:05.1]:a\n"]⟩]).flatMap
            (fun f => List.replicate (read_file 2025 [f] false).1.length f.name) :=
  claim7_source_order 2025 false none
    [⟨"b.log", ["[B t,01-02 03:04:05.1]:b\n"]⟩, ⟨"a.log", ["[A t,01-02 03:04:05.1]:a\n"]⟩]
    (by decide)

/-! ### The result cap of `generate_logs` (C3, C10) -/

/-- The yielded list of `generate_logs` is the loop's output whatever
ended the loop. -/
theorem generate_from_fst (s : List Detail × Option String) (args : Args) :
    (generate_from s args).1 = (gen_loop args 0 s.1).1 := by
  unfold generate_from
  rcases h : gen_loop args 0 s.1 with ⟨out, e⟩
  cases e <;> simp

/-- `filter_detail` returns a Boolean whenever the level filter is falsy
and, should a time bound be set, the record's timestamp is materialized. -/
theorem filter_detail_ok_of (d : Detail) (args : Args)
    (hl : levelSet args.level = false)
    (hwin : (args.start_time.isSome || args.end_time.isSome) = true → ∃ t, d.dt = .ts t) :
    ∃ bb, filter_detail d args = .ok bb := by
  unfold filter_detail
  rw [hl]
  simp only [if_neg Bool.false_ne_true]
  by_cases hth : (decide (args.thread ≠ []) && !(args.thread.any fun pat => re_match pat d.thread)) = true
  · exact ⟨false, by rw [if_pos hth]⟩
  · rw [if_neg hth]
    have hct : ∃ bb, checkTime d args = .ok bb := by
      by_cases hw : (args.start_time.isSome || args.end_time.isSome) = true
      · rcases hwin hw with ⟨t, ht⟩
        have hce : ∃ bb, checkEnd d args = .ok bb := by
          unfold checkEnd
          cases args.end_time with
          | none => exact ⟨true, rfl⟩
          | some et =>
            by_cases h1 : et < t
            · exact ⟨false, by simp [ht, h1]⟩
            · exact ⟨true, by simp [ht, h1]⟩
        unfold checkTime
        rw [if_pos hw]
        cases args.start_time with
        | none => exact hce
        | some st =>
          by_cases h1 : t < st
          · exact ⟨false, by simp [ht, h1]⟩
          · rcases hce with ⟨bb, hbb⟩
            exact ⟨bb, by simp [ht, h1, hbb]⟩
      · exact ⟨true, by unfold checkTime; simp [Bool.not_eq_true] at hw; simp [hw]⟩
    rcases hct with ⟨bb, hbb⟩
    rw [hbb]
    cases bb
    · exact ⟨false, rfl⟩
    · exact ⟨checkContent d args, rfl⟩

/-- In unbounded mode (both bounds set) the loop yields every match. -/
theorem gen_loop_unbounded (args : Args) (hu : unbounded args = true) :
    ∀ (ds : List Detail) (count : Nat),
      (∀ d ∈ ds, ∃ bb, filter_detail d args = .ok bb) →
      gen_loop args count ds = (ds.filter (passes args), .finished) := by
  intro ds
  induction ds with
  | nil => intro count _; rfl
  | cons d rest ih =>
    intro count htot
    rcases htot d (by simp) with ⟨bb, hb⟩
    have hrest : ∀ x ∈ rest, ∃ bb, filter_detail x args = .ok bb :=
      fun x hx => htot x (by simp [hx])
    cases bb
    · simp [gen_loop, hb, List.filter_cons, passes, ih count hrest]
    · simp [gen_loop, hb, hu, List.filter_cons, passes, ih (count + 1) hrest]

/-- In bounded mode the loop yields the first `1000 - count` matches. -/
theorem gen_loop_bounded_out (args : Args) (hu : unbounded args = false) :
    ∀ (ds : List Detail) (count : Nat), count ≤ 1000 →
      (∀ d ∈ ds, ∃ bb, filter_detail d args = .ok bb) →
      (gen_loop args count ds).1 = (ds.filter (passes args)).take (1000 - count) := by
  intro ds
  induction ds with
  | nil => intro count _ _; simp [gen_loop]
  | cons d rest ih =>
    intro count hc htot
    rcases htot d (by simp) with ⟨bb, hb⟩
    have hrest : ∀ x ∈ rest, ∃ bb, filter_detail x args = .ok bb :=
      fun x hx => htot x (by simp [hx])
    cases bb
    · simp only [gen_loop, hb]
      rw [ih count hc hrest]
      have : passes args d = false := by simp [passes, hb]
      simp [List.filter_cons, this]
    · have hpass : passes args d = true := by simp [passes, hb]
      by_cases h1000 : count < 1000
      · have hbreak : (!unbounded args && decide (count + 1 > 1000)) = false := by
          simp [hu]
          omega
        simp only [gen_loop, hb, hbreak, Bool.false_eq_true, if_false]
        rw [ih (count + 1) (by omega) hrest]
        simp only [List.filter_cons, hpass, if_pos]
        have hstep : 1000 - count = (1000 - (count + 1)) + 1 := by omega
        rw [hstep, List.take_succ_cons]
      · have hceq : count = 1000 := by omega
        subst hceq
        have hbreak : (!unbounded args && decide (1000 + 1 > 1000)) = true := by simp [hu]
        simp [gen_loop, hb, hbreak, List.filter_cons, hpass, hu]

/-- C3: with no time window configured, the query loop caps the output:
given at least 1001 matching records it yields exactly 1000; with an
explicit window (both start and end), it yields every matching record,
uncapped. -/
theorem claim3_result_cap :
    (∀ (year : Nat) (files : List PFile) (args : Args),
        args.start_time = none → args.end_time = none → levelSet args.level = false →
        1001 ≤ (read_file year files false).1.countP (passes args) →
        (query_stream year files args).1.length = 1000)
    ∧ (∀ (year : Nat) (files : List PFile) (args : Args) (st et : Nat),
        args.start_time = some st → args.end_time = some et → levelSet args.level = false →
        (query_stream year files args).1
          = (read_file year files true).1.filter (passes args)) := by
  constructor
  · intro year files args hs he hl hcount
    have htot : ∀ d ∈ (read_file year files false).1, ∃ bb, filter_detail d args = .ok bb := by
      intro d _
      refine filter_detail_ok_of d args hl ?_
      intro hw
      rw [hs, he] at hw
      cases hw
    simp only [query_stream, hs, he, Option.isSome_none, Bool.or_self]
    rw [generate_from_fst]
    rw [gen_loop_bounded_out args (by simp [unbounded, hs]) _ 0 (by omega) htot]
    rw [List.length_take]
    have hlen : 1000 ≤ ((read_file year files false).1.filter (passes args)).length := by
      rw [← List.countP_eq_length_filter]
      omega
    omega
  · intro year files args st et hs he hl
    have htot : ∀ d ∈ (read_file year files true).1, ∃ bb, filter_detail d args = .ok bb :=
      fun d hd => filter_detail_ok_of d args hl (fun _ => read_file_true_ts year files d hd)
    simp only [query_stream, hs, he, Option.isSome_some, Bool.or_self]
    rw [generate_from_fst]
    rw [gen_loop_unbounded args (by simp [unbounded, hs, he]) _ 0 htot]

/-- C10: with exactly one bound configured (a half-open window) the cap
still applies — uncapped mode needs both bounds — even though the single
bound forces timestamp materialization and time filtering. -/
theorem claim10_half_window_cap (year : Nat) (files : List PFile) (args : Args) (v : Nat)
    (h : (args.start_time = some v ∧ args.end_time = none) ∨
         (args.start_time = none ∧ args.end_time = some v))
    (hl : levelSet args.level = false)
    (hcount : 1001 ≤ (read_file year files true).1.countP (passes args)) :
    (query_stream year files args).1.length = 1000 := by
  have htot : ∀ d ∈ (read_file year files true).1, ∃ bb, filter_detail d args = .ok bb :=
    fun d hd => filter_detail_ok_of d args hl (fun _ => read_file_true_ts year files d hd)
  have hlen : 1000 ≤ ((read_file year files true).1.filter (passes args)).length := by
    rw [← List.countP_eq_length_filter]
    omega
  rcases h with ⟨hs, he⟩ | ⟨hs, he⟩ <;>
    [simp only [query_stream, hs, he, Option.isSome_some, Option.isSome_none, Bool.or_false];
     simp only [query_stream, hs, he, Option.isSome_some, Option.isSome_none, Bool.false_or]] <;>
    rw [generate_from_fst,
      gen_loop_bounded_out args (by simp [unbounded, hs, he]) _ 0 (by omega) htot,
      List.length_take] <;> omega

/-! ### Witness material for the cap theorems -/

/-- Replicating a header line replicates the produced detail. -/
theorem runLines_replicate (year : Nat) (b : Bool) (fname : String) (det : Detail)
    (line : String)
    (hstep : stepLine year b fname (some det, true) line = ([det], .ok (some det, true))) :
    ∀ n, runLines year b fname (some det, true) (List.replicate n line)
      = (List.replicate n det, .ok (some det, true)) := by
  intro n
  induction n with
  | zero => rfl
  | succ n ih =>
    simp [List.replicate_succ, runLines, hstep, ih]

/-- A file of `n+1` identical header lines yields `n+1` identical
records. -/
theorem read_file_replicate (year : Nat) (b : Bool) (fname : String) (det : Detail)
    (line : String) (n : Nat)
    (hstep0 : stepLine year b fname (none, false) line = ([], .ok (some det, true)))
    (hstep : stepLine year b fname (some det, true) line = ([det], .ok (some det, true))) :
    read_file year [⟨fname, List.replicate (n + 1) line⟩] b
      = (List.replicate (n + 1) det, none) := by
  simp only [read_file, runFiles, List.replicate_succ, runLines, hstep0,
    runLines_replicate year b fname det line hstep n]
  have hrep : List.replicate n det ++ [det] = det :: List.replicate n det := by
    rw [← List.replicate_succ', List.replicate_succ]
  simp [hrep]

/-- Counting a satisfied predicate over a replicate. -/
theorem countP_replicate {α : Type} (p : α → Bool) (a : α) (hp : p a = true) :
    ∀ n, List.countP p (List.replicate n a) = n := by
  intro n
  induction n with
  | zero => rfl
  | succ n ih => simp [List.replicate_succ, List.countP_cons, hp, ih]

/-- C3 witness: a single file of 1001 identical matching header lines is
capped at 1000 in bounded mode; a one-record file with an explicit window
yields its full filtered stream. -/
theorem claim3_witness :
    (query_stream 2025 [⟨"a.log", List.replicate 1001 "[A b,01-02 03:04:05.1]:x\n"⟩] {}).1.length
        = 1000
    ∧ (query_stream 2025 [⟨"s.log", ["[A b,01-02 03:04:05.1]:x\n"]⟩]
          { start_time := some 0, end_time := some 99999999999999999 }).1
        = (read_file 2025 [⟨"s.log", ["[A b,01-02 03:04:05.1]:x\n"]⟩] true).1.filter
            (passes { start_time := some 0, end_time := some 99999999999999999 }) := by
  constructor
  · apply claim3_result_cap.1 2025 _ {} rfl rfl rfl
    rw [read_file_replicate 2025 false "a.log"
      ⟨"a.log", "A", "b", .str "01-02 03:04:05.1", "x", "[A b,01-02 03:04:05.1]:x"⟩
      "[A b,01-02 03:04:05.1]:x\n" 1000 (by decide) (by decide)]
    rw [countP_replicate _ _ (by decide) 1001]
  · exact claim3_result_cap.2 2025 _ _ _ _ rfl rfl rfl

/-- C10 witness: 1001 matches under a start-only window still yield
exactly 1000 records. -/
theorem claim10_witness :
    (query_stream 2025 [⟨"a.log", List.replicate 1001 "[A b,01-02 03:04:05.1]:x\n"⟩]
        { start_time := some 0 }).1.length = 1000 := by
  apply claim10_half_window_cap 2025 _ { start_time := some 0 } 0 (Or.inl ⟨rfl, rfl⟩) rfl
  rw [read_file_replicate 2025 true "a.log"
    ⟨"a.log", "A", "b", .ts (tsKey 2025 1 2 3 4 5 100000), "x", "[A b,01-02 03:04:05.1]:x"⟩
    "[A b,01-02 03:04:05.1]:x\n" 1000 (by decide) (by decide)]
  rw [countP_replicate _ _ (by decide) 1001]

/-! ### The file summary index: bounds invariants (C4) -/

theorem updMin_le_t (cur : Option Nat) (t : Nat) :
    ∃ mn, updMin cur t = some mn ∧ mn ≤ t := by
  cases cur with
  | none => exact ⟨t, rfl, le_refl t⟩
  | some m =>
    by_cases h : t < m
    · exact ⟨t, by simp [updMin, h], le_refl t⟩
    · exact ⟨m, by simp [updMin, h], by omega⟩

theorem updMin_mono (m0 t : Nat) :
    ∃ mn, updMin (some m0) t = some mn ∧ mn ≤ m0 := by
  by_cases h : t < m0
  · exact ⟨t, by simp [updMin, h], by omega⟩
  · exact ⟨m0, by simp [updMin, h], le_refl m0⟩

theorem updMax_ge_t (cur : Option Nat) (t : Nat) :
    ∃ mx, updMax cur t = some mx ∧ t ≤ mx := by
  cases cur with
  | none => exact ⟨t, rfl, le_refl t⟩
  | some m =>
    by_cases h : m < t
    · exact ⟨t, by simp [updMax, h], le_refl t⟩
    · exact ⟨m, by simp [updMax, h], by omega⟩

theorem updMax_mono (m0 t : Nat) :
    ∃ mx, updMax (some m0) t = some mx ∧ m0 ≤ mx := by
  by_cases h : m0 < t
  · exact ⟨t, by simp [updMax, h], by omega⟩
  · exact ⟨m0, by simp [updMax, h], le_refl m0⟩

theorem addThread_self (l : List String) (th : String) : th ∈ addThread l th := by
  unfold addThread
  by_cases h : l.contains th = true
  · rw [if_pos h]
    exact List.mem_of_elem_eq_true h
  · rw [if_neg h]
    exact List.mem_append_right _ (by simp)

theorem addThread_mono (l : List String) (th x : String) (hx : x ∈ l) :
    x ∈ addThread l th := by
  unfold addThread
  by_cases h : l.contains th = true
  · rw [if_pos h]
    exact hx
  · rw [if_neg h]
    exact List.mem_append_left _ hx

/-- Looking up the updated key. -/
theorem updEntry_lookup_self :
    ∀ (idx : List (String × Summary)) (n : String) (t : Nat) (th : String),
      lookup_index (updEntry idx n t th) n =
        some (match lookup_index idx n with
          | none => ⟨some t, some t, [th]⟩
          | some s => ⟨updMin s.min_datetime t, updMax s.max_datetime t,
              addThread s.thread th⟩) := by
  intro idx
  induction idx with
  | nil => intro n t th; simp [updEntry, lookup_index]
  | cons p rest ih =>
    intro n t th
    rcases p with ⟨m, s⟩
    by_cases h : m = n
    · subst h
      simp [updEntry, lookup_index]
    · simp only [updEntry, if_neg h]
      have hbeq : (m == n) = false := by simp [h]
      simp only [lookup_index, List.find?_cons, hbeq]
      exact ih n t th

/-- Other keys are untouched. -/
theorem updEntry_lookup_other :
    ∀ (idx : List (String × Summary)) (n m : String) (t : Nat) (th : String), m ≠ n →
      lookup_index (updEntry idx n t th) m = lookup_index idx m := by
  intro idx
  induction idx with
  | nil =>
    intro n m t th hne
    have hbeq : (n == m) = false := by simp [Ne.symm hne]
    simp [updEntry, lookup_index, hbeq]
  | cons p rest ih =>
    intro n m t th hne
    rcases p with ⟨k, s⟩
    by_cases h : k = n
    · subst h
      have hbeq : (k == m) = false := by simp [Ne.symm hne]
      simp [updEntry, lookup_index, List.find?_cons, hbeq]
    · simp only [updEntry, if_neg h]
      by_cases hk : k = m
      · subst hk
        simp [lookup_index, List.find?_cons]
      · have hbeq : (k == m) = false := by simp [hk]
        simp only [lookup_index, List.find?_cons, hbeq]
        exact ih n m t th hne

/-- The per-source facts the pruning proof needs about a summary. -/
def SummGE (s : Summary) (t : Nat) (th : String) : Prop :=
  (∃ mn, s.min_datetime = some mn ∧ mn ≤ t) ∧
  (∃ mx, s.max_datetime = some mx ∧ t ≤ mx) ∧
  th ∈ s.thread

theorem upd_index_pres (idx : List (String × Summary)) (d : Detail) (n : String)
    (s : Summary) (t : Nat) (th : String)
    (hl : lookup_index idx n = some s) (hs : SummGE s t th) :
    ∃ s', lookup_index (upd_index idx d) n = some s' ∧ SummGE s' t th := by
  unfold upd_index
  cases hdt : d.dt with
  | str _ => exact ⟨s, hl, hs⟩
  | ts t' =>
    by_cases h : d.filename = n
    · subst h
      rw [updEntry_lookup_self idx d.filename t' d.thread, hl]
      rcases hs with ⟨⟨mn, hmn, hmn'⟩, ⟨mx, hmx, hmx'⟩, hth⟩
      rcases updMin_mono mn t' with ⟨mn2, hmn2, hmn2'⟩
      rcases updMax_mono mx t' with ⟨mx2, hmx2, hmx2'⟩
      refine ⟨_, rfl, ⟨mn2, ?_, by omega⟩, ⟨mx2, ?_, by omega⟩, ?_⟩
      · simp [hmn, hmn2]
      · simp [hmx, hmx2]
      · exact addThread_mono s.thread d.thread th hth
    · rw [updEntry_lookup_other idx d.filename n t' d.thread (Ne.symm h), hl]
      exact ⟨s, rfl, hs⟩

theorem fold_index_pres :
    ∀ (ds : List Detail) (idx : List (String × Summary)) (n : String)
      (s : Summary) (t : Nat) (th : String),
      lookup_index idx n = some s → SummGE s t th →
      ∃ s', lookup_index (ds.foldl upd_index idx) n = some s' ∧ SummGE s' t th := by
  intro ds
  induction ds with
  | nil => intro idx n s t th hl hs; exact ⟨s, hl, hs⟩
  | cons d rest ih =>
    intro idx n s t th hl hs
    rcases upd_index_pres idx d n s t th hl hs with ⟨s', hl', hs'⟩
    exact ih (upd_index idx d) n s' t th hl' hs'

/-- Every record's timestamp lies within its source's summary bounds, and
its thread label is collected. -/
theorem build_index_bounds :
    ∀ (ds : List Detail) (idx : List (String × Summary)) (d : Detail) (t : Nat),
      d ∈ ds → d.dt = .ts t →
      ∃ s, lookup_index (ds.foldl upd_index idx) d.filename = some s ∧
        SummGE s t d.thread := by
  intro ds
  induction ds with
  | nil => intro idx d t hd _; simp at hd
  | cons d0 rest ih =>
    intro idx d t hd hdt
    rcases List.mem_cons.mp hd with hd | hd
    · subst hd
      have hstep : ∃ s, lookup_index (upd_index idx d) d.filename = some s ∧
          SummGE s t d.thread := by
        unfold upd_index
        rw [hdt]
        rw [updEntry_lookup_self idx d.filename t d.thread]
        cases hl : lookup_index idx d.filename with
        | none =>
          exact ⟨_, rfl, ⟨t, rfl, le_refl t⟩, ⟨t, rfl, le_refl t⟩, by simp⟩
        | some s0 =>
          rcases updMin_le_t s0.min_datetime t with ⟨mn, hmn, hmn'⟩
          rcases updMax_ge_t s0.max_datetime t with ⟨mx, hmx, hmx'⟩
          exact ⟨_, rfl, ⟨mn, by simp [hmn], hmn'⟩, ⟨mx, by simp [hmx], hmx'⟩,
            addThread_self s0.thread d.thread⟩
      rcases hstep with ⟨s, hl, hs⟩
      exact fold_index_pres rest (upd_index idx d) d.filename s t d.thread hl hs
    · exact ih (upd_index idx d0) d t hd hdt

/-- Every summary the index holds has both time bounds populated. -/
theorem build_index_entry_some :
    ∀ (ds : List Detail) (idx : List (String × Summary)),
      (∀ p ∈ idx, p.2.min_datetime.isSome = true ∧ p.2.max_datetime.isSome = true) →
      ∀ p ∈ ds.foldl upd_index idx,
        p.2.min_datetime.isSome = true ∧ p.2.max_datetime.isSome = true := by
  have hupd : ∀ (idx : List (String × Summary)) (n : String) (t : Nat) (th : String),
      (∀ p ∈ idx, p.2.min_datetime.isSome = true ∧ p.2.max_datetime.isSome = true) →
      ∀ p ∈ updEntry idx n t th,
        p.2.min_datetime.isSome = true ∧ p.2.max_datetime.isSome = true := by
    intro idx
    induction idx with
    | nil =>
      intro n t th _ p hp
      simp only [updEntry, List.mem_singleton] at hp
      subst hp
      exact ⟨rfl, rfl⟩
    | cons q rest ih =>
      intro n t th hinv p hp
      rcases q with ⟨m, s⟩
      by_cases h : m = n
      · subst h
        simp only [updEntry, if_pos rfl] at hp
        rcases List.mem_cons.mp hp with hp | hp
        · subst hp
          constructor
          · rcases updMin_le_t s.min_datetime t with ⟨mn, hmn, _⟩
            simp [hmn]
          · rcases updMax_ge_t s.max_datetime t with ⟨mx, hmx, _⟩
            simp [hmx]
        · exact hinv p (by simp [hp])
      · simp only [updEntry, if_neg h] at hp
        rcases List.mem_cons.mp hp with hp | hp
        · subst hp
          exact hinv (m, s) (by simp)
        · exact ih n t th (fun q hq => hinv q (by simp [hq])) p hp
  intro ds
  induction ds with
  | nil => intro idx hinv p hp; exact hinv p hp
  | cons d rest ih =>
    intro idx hinv p hp
    refine ih (upd_index idx d) ?_ p hp
    unfold upd_index
    cases d.dt with
    | str _ => exact hinv
    | ts t => exact hupd idx d.filename t d.thread hinv

/-- A looked-up summary of a built index has both bounds populated. -/
theorem build_index_lookup_some (ds : List Detail) (n : String) (s : Summary)
    (h : lookup_index (build_index ds) n = some s) :
    s.min_datetime.isSome = true ∧ s.max_datetime.isSome = true := by
  unfold lookup_index at h
  rcases hf : (build_index ds).find? (fun p => p.1 == n) with _ | p
  · rw [hf] at h
    cases h
  · rw [hf] at h
    have hp := List.mem_of_find?_eq_some hf
    have := build_index_entry_some ds [] (by simp) p hp
    cases h
    exact this

/-! ### Pruning soundness (C4) -/

/-- A record a configured thread filter rejects. -/
theorem passes_false_thread (d : Detail) (args : Args)
    (hl : levelSet args.level = false) (hth : args.thread ≠ [])
    (hany : (args.thread.any fun pat => re_match pat d.thread) = false) :
    passes args d = false := by
  have hcond : (decide (args.thread ≠ []) && !(args.thread.any fun pat => re_match pat d.thread))
      = true := by simp [hth, hany]
  unfold passes filter_detail
  rw [hl]
  simp only [if_neg Bool.false_ne_true]
  rw [if_pos hcond]

/-- A record whose materialized timestamp lies strictly outside a
configured bound fails the filter. -/
theorem passes_false_time (d : Detail) (args : Args) (t : Nat)
    (hl : levelSet args.level = false) (ht : d.dt = .ts t)
    (h : (∃ st, args.start_time = some st ∧ t < st) ∨
         (∃ et, args.end_time = some et ∧ et < t)) :
    passes args d = false := by
  have hct : checkTime d args = .ok false := by
    rcases h with ⟨st, hst, hlt⟩ | ⟨et, het, hgt⟩
    · have hw : (args.start_time.isSome || args.end_time.isSome) = true := by simp [hst]
      unfold checkTime
      rw [if_pos hw]
      simp [hst, ht, hlt]
    · have hw : (args.start_time.isSome || args.end_time.isSome) = true := by simp [het]
      have hce : checkEnd d args = .ok false := by
        unfold checkEnd
        simp [het, ht, hgt]
      unfold checkTime
      rw [if_pos hw]
      cases hs : args.start_time with
      | none => simpa [hs] using hce
      | some st =>
        by_cases h1 : t < st
        · simp [ht, h1]
        · simp [ht, h1]
          exact hce
  unfold passes filter_detail
  rw [hl]
  simp only [if_neg Bool.false_ne_true]
  by_cases hcond : (decide (args.thread ≠ []) &&
      !(args.thread.any fun pat => re_match pat d.thread)) = true
  · rw [if_pos hcond]
  · rw [if_neg hcond, hct]

/-- `prune_files` succeeding means each file got a Boolean verdict. -/
theorem prune_files_all_ok (idx : List (String × Summary)) (args : Args) :
    ∀ (files : List PFile) (pruned : List PFile),
      prune_files idx args files = .ok pruned →
      ∀ f ∈ files, ∃ bb, filter_file_idx idx args f.name = .ok bb := by
  intro files
  induction files with
  | nil => intro pruned _ f hf; simp at hf
  | cons f0 fs ih =>
    intro pruned hp f hf
    unfold prune_files at hp
    rcases hx : filter_file_idx idx args f0.name with e | b
    · rw [hx] at hp
      cases hp
    · rw [hx] at hp
      rcases hy : prune_files idx args fs with e | rest
      · rw [hy] at hp
        cases hp
      · rcases List.mem_cons.mp hf with hf | hf
        · subst hf
          exact ⟨b, hx⟩
        · exact ih rest hy f hf

/-- `prune_files`, when it succeeds, is the list comprehension filter. -/
theorem prune_files_ok_filter (idx : List (String × Summary)) (args : Args) :
    ∀ (files : List PFile) (pruned : List PFile),
      prune_files idx args files = .ok pruned →
      pruned = files.filter (fun f => decide (filter_file_idx idx args f.name = .ok true)) := by
  intro files
  induction files with
  | nil =>
    intro pruned hp
    cases hp
    rfl
  | cons f0 fs ih =>
    intro pruned hp
    unfold prune_files at hp
    rcases hx : filter_file_idx idx args f0.name with e | b
    · rw [hx] at hp
      cases hp
    · rw [hx] at hp
      rcases hy : prune_files idx args fs with e | rest
      · rw [hy] at hp
        cases hp
      · rw [hy] at hp
        cases hp
        cases b
        · simp [List.filter_cons, hx, ih rest hy]
        · simp [List.filter_cons, hx, ih rest hy]

/-- Dropping list elements whose blocks contribute nothing to the filtered
concatenation does not change it. -/
theorem flatMap_filter_sub {α β : Type} (p : β → Bool) (keep : α → Bool)
    (recs : α → List β) :
    ∀ (l : List α), (∀ x ∈ l, keep x = false → (recs x).filter p = []) →
      ((l.filter keep).flatMap recs).filter p = (l.flatMap recs).filter p := by
  intro l
  induction l with
  | nil => intro _; rfl
  | cons a as ih =>
    intro h
    have hrest : ∀ x ∈ as, keep x = false → (recs x).filter p = [] :=
      fun x hx => h x (by simp [hx])
    cases ha : keep a
    · simp only [List.flatMap_cons, List.filter_cons, ha, List.filter_append,
        h a (by simp) ha, List.nil_append]
      simp [ih hrest]
    · simp only [List.flatMap_cons, List.filter_cons, ha, List.filter_append]
      simp [List.filter_append, ih hrest]

/-- A record of a source that `filter_file_idx` rules out (against the
index built from the very stream the record belongs to) fails
`filter_detail`. -/
theorem pruned_record_fails (args : Args) (ds : List Detail) (d : Detail) (t : Nat)
    (hl : levelSet args.level = false) (hd : d ∈ ds) (ht : d.dt = .ts t)
    (hprune : filter_file_idx (build_index ds) args d.filename = .ok false) :
    passes args d = false := by
  rcases build_index_bounds ds [] d t hd ht with ⟨s, hs, ⟨mn, hmn, hmn'⟩, ⟨mx, hmx, hmx'⟩, hth⟩
  unfold filter_file_idx build_index at hprune
  simp only [hs] at hprune
  by_cases hcond : (decide (args.thread ≠ []) &&
      !(s.thread.any fun th => args.thread.any fun pat => re_match pat th)) = true
  · -- thread pruning fired: no pattern matches any summary thread,
    -- in particular none matches this record's thread
    have hne : args.thread ≠ [] := by
      rcases Bool.and_eq_true_iff.mp hcond with ⟨h1, _⟩
      simpa using h1
    have hnone : (s.thread.any fun th => args.thread.any fun pat => re_match pat th) = false := by
      rcases Bool.and_eq_true_iff.mp hcond with ⟨_, h2⟩
      simpa using h2
    have hanyd : (args.thread.any fun pat => re_match pat d.thread) = false := by
      by_contra hcon
      rw [Bool.not_eq_false] at hcon
      have : (s.thread.any fun th => args.thread.any fun pat => re_match pat th) = true :=
        List.any_eq_true.mpr ⟨d.thread, hth, hcon⟩
      rw [hnone] at this
      cases this
    exact passes_false_thread d args hl hne hanyd
  · -- time pruning fired
    rw [if_neg hcond] at hprune
    unfold checkSummaryTime at hprune
    cases hst : args.start_time with
    | some st =>
      by_cases h1 : mx < st
      · exact passes_false_time d args t hl ht (Or.inl ⟨st, hst, by omega⟩)
      · simp only [hst, hmx, if_neg h1] at hprune
        unfold checkSummaryMin at hprune
        cases het : args.end_time with
        | some et =>
          by_cases h2 : et < mn
          · exact passes_false_time d args t hl ht (Or.inr ⟨et, het, by omega⟩)
          · simp only [het, hmn, if_neg h2] at hprune
            cases hprune
        | none =>
          simp only [het] at hprune
          cases hprune
    | none =>
      simp only [hst] at hprune
      unfold checkSummaryMin at hprune
      cases het : args.end_time with
      | some et =>
        by_cases h2 : et < mn
        · exact passes_false_time d args t hl ht (Or.inr ⟨et, het, by omega⟩)
        · simp only [het, hmn, if_neg h2] at hprune
          cases hprune
      | none =>
        simp only [het] at hprune
        cases hprune

/-! ### C4 -/

/-- C4: pruning against the file summary index is sound.  (a) Against an
index built from the parsed stream, a source whose summary max timestamp
precedes the window start, or whose min timestamp follows the window end,
is ruled out; (b) a source absent from the index is always eligible;
(c) pruning the file list with the index built from that same unpruned
parse never changes the filtered result set. -/
theorem claim4_prune_soundness :
    (∀ (ds : List Detail) (args : Args) (fname : String) (s : Summary),
        lookup_index (build_index ds) fname = some s →
        ((∃ st mx, args.start_time = some st ∧ s.max_datetime = some mx ∧ mx < st) ∨
         (∃ et mn, args.end_time = some et ∧ s.min_datetime = some mn ∧ et < mn)) →
        filter_file_idx (build_index ds) args fname = .ok false
        ∧ ∀ (files pruned : List PFile) (f : PFile),
            prune_files (build_index ds) args files = .ok pruned →
            f.name = fname → f ∉ pruned)
    ∧ (∀ (idx : List (String × Summary)) (args : Args) (fname : String),
        lookup_index idx fname = none → filter_file_idx idx args fname = .ok true)
    ∧ (∀ (year : Nat) (files : List PFile) (args : Args) (pruned : List PFile),
        levelSet args.level = false →
        (read_file year files true).2 = none →
        prune_files (build_index (read_file year files true).1) args files = .ok pruned →
        (read_file year pruned true).1.filter (passes args)
          = (read_file year files true).1.filter (passes args)) := by
  refine ⟨?_, ?_, ?_⟩
  · -- (a) time-ruled-out sources are pruned
    intro ds args fname s hs hout
    have hff : filter_file_idx (build_index ds) args fname = .ok false := by
      unfold filter_file_idx
      simp only [hs]
      by_cases hcond : (decide (args.thread ≠ []) &&
          !(s.thread.any fun th => args.thread.any fun pat => re_match pat th)) = true
      · rw [if_pos hcond]
      · rw [if_neg hcond]
        rcases hout with ⟨st, mx, hst, hmx, hlt⟩ | ⟨et, mn, het, hmn, hgt⟩
        · unfold checkSummaryTime
          simp [hst, hmx, hlt]
        · unfold checkSummaryTime
          cases hst : args.start_time with
          | none =>
            unfold checkSummaryMin
            simp [het, hmn, hgt]
          | some st =>
            rcases (build_index_lookup_some ds fname s hs).2 with hmax
            rcases hmx2 : s.max_datetime with _ | mx
            · rw [hmx2] at hmax
              cases hmax
            · by_cases h1 : mx < st
              · simp [hmx2, h1]
              · unfold checkSummaryMin
                simp [hmx2, h1, het, hmn, hgt]
    refine ⟨hff, ?_⟩
    intro files pruned f hp hname
    rw [prune_files_ok_filter _ _ files pruned hp]
    intro hmem
    have hdec := (List.mem_filter.mp hmem).2
    rw [hname, hff] at hdec
    simp at hdec
  · -- (b) sources absent from the index are eligible
    intro idx args fname h
    unfold filter_file_idx
    rw [h]
  · -- (c) pruning never changes the filtered result set
    intro year files args pruned hl herr hprune
    have hflat := read_file_flatMap year true files herr
    -- the unpruned run succeeded, so every file's solo run succeeds
    have hperfile : ∀ f ∈ files, ∃ es' c',
        runLines year true f.name (none, false) f.lines = (es', .ok c') := by
      rcases hr : runFiles year true none files with ⟨es, r⟩
      cases r with
      | error e => simp [read_file, hr] at herr
      | ok c => exact runFiles_per_file_ok year true files none es c hr
    have hpf := prune_files_ok_filter _ args files pruned hprune
    have hperfile' : ∀ f ∈ pruned, ∃ es' c',
        runLines year true f.name (none, false) f.lines = (es', .ok c') := by
      intro f hf
      rw [hpf] at hf
      exact hperfile f (List.mem_filter.mp hf).1
    have hprerr : (read_file year pruned true).2 = none := by
      rcases runFiles_decomp year true pruned none hperfile' with ⟨es2, c2, h2, _⟩
      simp [read_file, h2]
    rw [read_file_flatMap year true pruned hprerr, hflat, hpf]
    apply flatMap_filter_sub
    intro f hf hkeep
    have hfb : ∃ bb, filter_file_idx (build_index (read_file year files true).1) args f.name
        = .ok bb := prune_files_all_ok _ args files pruned hprune f hf
    rcases hfb with ⟨bb, hbb⟩
    have hfalse : filter_file_idx (build_index (read_file year files true).1) args f.name
        = .ok false := by
      cases bb
      · exact hbb
      · rw [hbb] at hkeep
        simp at hkeep
    rw [List.filter_eq_nil_iff]
    intro d hd
    have hdds : d ∈ (read_file year files true).1 := by
      rw [hflat]
      exact List.mem_flatMap.mpr ⟨f, hf, hd⟩
    rcases read_file_true_ts year files d hdds with ⟨t, ht⟩
    have hdfname : d.filename = f.name := read_file_single_filename year true f d hd
    rw [Bool.not_eq_true]
    exact pruned_record_fails args _ d t hl hdds ht (by rw [hdfname]; exact hfalse)

/-- C4 witness: the three parts at concrete inputs — a one-record source
whose summary lies below the window start is pruned; an unindexed source
is eligible; pruning a two-source parse (one source entirely before the
window) leaves the filtered result set unchanged. -/
theorem claim4_witness :
    filter_file_idx (build_index [⟨"a.log", "A", "t", .ts 50, "c", "r"⟩])
        { start_time := some 100, end_time := some 200 } "a.log" = .ok false
    ∧ filter_file_idx [] { start_time := some 100 } "zz.log" = .ok true
    ∧ (read_file 2025 [⟨"a.log", ["[A t,06-01 00:00:00.0]:in\n"]⟩] true).1.filter
          (passes { start_time := some (tsKey 2025 2 1 0 0 0 0),
                    end_time := some (tsKey 2025 12 31 23 59 59 0) })
        = (read_file 2025 [⟨"a.log", ["[A t,06-01 00:00:00.0]:in\n"]⟩,
              ⟨"b.log", ["[A t,01-02 03:04:05.1]:old\n"]⟩] true).1.filter
            (passes { start_time := some (tsKey 2025 2 1 0 0 0 0),
                      end_time := some (tsKey 2025 12 31 23 59 59 0) }) := by
  refine ⟨?_, ?_, ?_⟩
  · exact (claim4_prune_soundness.1 [⟨"a.log", "A", "t", .ts 50, "c", "r"⟩]
      { start_time := some 100, end_time := some 200 } "a.log"
      ⟨some 50, some 50, ["t"]⟩ (by decide) (Or.inl ⟨100, 50, rfl, by decide, by decide⟩)).1
  · exact claim4_prune_soundness.2.1 [] { start_time := some 100 } "zz.log" rfl
  · exact claim4_prune_soundness.2.2 2025
      [⟨"a.log", ["[A t,06-01 00:00:00.0]:in\n"]⟩, ⟨"b.log", ["[A t,01-02 03:04:05.1]:old\n"]⟩]
      { start_time := some (tsKey 2025 2 1 0 0 0 0),
        end_time := some (tsKey 2025 12 31 23 59 59 0) }
      [⟨"a.log", ["[A t,06-01 00:00:00.0]:in\n"]⟩]
      rfl (by decide) (by decide)

end RLog
